import Mathlib

/-!
Verification of the `sky-packer` tar split-writer and parallel unpacker
(`src/main.rs`) against its natural-language specification.

The development shallowly embeds the program:

* machine integers are `Nat` with explicit `% 2^32` where the Rust source
  stores a value into a `u32` field (`SplitMetadata.start_offset`,
  `SplitMetadata.chunk_size`) or performs `u32` arithmetic
  (`start_offset += chunk_size as u32`; an `as u32` cast truncates silently
  in every build profile, and release builds wrap the addition);
* the fallible paths (panicking `unwrap`/`assert!` calls) return `Except`;
* the chunking `while` loop of `WriterState::write` is modelled with an
  explicit fuel argument; the fuel chosen at the call site dominates the
  iteration count whenever `split_size > 0`, and when `split_size = 0`
  (where the Rust loop genuinely never terminates) the model returns an
  error;
* external collaborators (SHA-256, the zstd codec, the staging-directory
  `stat` used by `--tar-source-from`) are function parameters of the
  model, matching the spec's "out of scope" list;
* the filesystem seen by the unpacker is an explicit store of path
  entries and inodes, so hard-link topology (inode sharing) is visible.
-/

/-! ## Basic helpers -/

def U32M : Nat := 2 ^ 32

def U64M : Nat := 2 ^ 64

/-- Zero-padded ordinal, mirroring the Rust format string of width 3 used in
`ensure_new_file` for `"{}.{:03}"`. -/
def pad3 (n : Nat) : String :=
  let s := toString n
  if s.length < 3 then String.mk (List.replicate (3 - s.length) (Char.ofNat 48)) ++ s else s

/-- `HashSet.insert` on the model's path set (a duplicate-free list). -/
def insertPath (ps : List String) (p : String) : List String :=
  if p ∈ ps then ps else ps ++ [p]

/-- Rust `str::ends_with`, on the underlying character list. -/
def strEndsWith (s post : String) : Bool :=
  post.data.isSuffixOf s.data

def parseDigitsAux (acc : Nat) : List Char → Option Nat
  | [] => Option.some acc
  | c :: cs =>
    if 48 ≤ c.toNat ∧ c.toNat ≤ 57 then parseDigitsAux (acc * 10 + (c.toNat - 48)) cs
    else Option.none

/-- Rust `str::parse::<u64>`: a nonempty digit string parses to its value
when it fits in a `u64`. -/
def parseU64 (s : String) : Option Nat :=
  match s.data with
  | [] => Option.none
  | l =>
    match parseDigitsAux 0 l with
    | Option.none => Option.none
    | Option.some n => if n < U64M then Option.some n else Option.none

/-! ## Data model: consumed tar entries -/

inductive EType where
  | regular
  | directory
  | symlink
  | link
  | other
  deriving DecidableEq, Repr

/-- One entry of the input tar stream, with the attributes the program
reads: type, path, declared header size, PAX key/value records, link
target, uid/gid, mode, and the body byte stream. -/
structure InEntry where
  path : String
  etype : EType
  hsize : Nat
  pax : List (String × String)
  linkName : Option String
  uid : Nat
  gid : Nat
  mode : Nat
  body : List Nat
  deriving DecidableEq, Repr

/-- The serialized reconstruction plan for one chunk (`SplitMetadata` in the
source). `start_offset` and `chunk_size` are `u32` on disk: the model stores
the truncated values the program stores. -/
structure SplitMetadata where
  path : String
  start_offset : Nat
  chunk_size : Nat
  total_size : Nat
  deriving DecidableEq, Repr

/-- An entry written to an output archive: a synthetic split-metadata
record, a synthetic chunk of a split file, or a verbatim re-appended input
entry (`append_data` with the cloned original header). -/
inductive OutEntry where
  | meta (name : String) (m : SplitMetadata)
  | chunk (path : String) (size : Nat) (uid gid : Nat) (body : List Nat)
  | plain (e : InEntry)
  deriving DecidableEq, Repr

/-- Path of an output entry as the unpacker's tar reader sees it. -/
def OutEntry.epath : OutEntry → String
  | OutEntry.meta name _ => name
  | OutEntry.chunk p _ _ _ _ => p
  | OutEntry.plain e => e.path

/-- Entry type of an output entry: both synthetic headers are Regular
(`Header::new_gnu` defaults to Regular; the chunk header sets it
explicitly), a re-appended entry keeps its original type. -/
def OutEntry.oetype : OutEntry → EType
  | OutEntry.meta _ _ => EType.regular
  | OutEntry.chunk _ _ _ _ _ => EType.regular
  | OutEntry.plain e => e.etype

/-- Link target of an output entry. -/
def OutEntry.olink : OutEntry → Option String
  | OutEntry.plain e => e.linkName
  | _ => Option.none

/-- Body bytes of an output entry (for the metadata record the body is its
JSON serialization, which the model carries structurally since
`serde_json` round-trips it on the unpack side). -/
def OutEntry.obody : OutEntry → List Nat
  | OutEntry.meta _ _ => []
  | OutEntry.chunk _ _ _ _ b => b
  | OutEntry.plain e => e.body

/-! ## Writer state machine -/

inductive PackErr where
  | paxParse
  | statMissing
  | missingLinkName
  | brokenHardlink (path target : String)
  | fuelExhausted
  deriving DecidableEq, Repr

/-- A completed output archive. `payload` is `current_split_file_size` at
finish time (accumulated uncompressed payload); `lastPos` is ghost
bookkeeping: the discovered size of the last entry with positive size
written into the archive (0 if none), used to state the soft size bound. -/
structure Archive where
  name : String
  entries : List OutEntry
  payload : Nat
  lastPos : Nat
  deriving DecidableEq, Repr

/-- `WriterState` of the source, plus the list of already-finished archives
(which the Rust program leaves on disk) and the ghost `lastPos` field. The
staging-directory override (`tar_source_from`) carries its `stat` function
directly, modelling `std::fs::metadata(..).len()`. -/
structure WState where
  splitSize : Nat
  splitTo : String
  compression : String
  current : Option (List OutEntry)
  css : Nat
  paths : List String
  completed : Nat
  splitFileName : String
  tsf : Option (String → Option Nat)
  finished : List Archive
  lastPos : Nat

def initWState (splitSize : Nat) (splitTo compression : String)
    (tsf : Option (String → Option Nat)) : WState :=
  { splitSize := splitSize, splitTo := splitTo, compression := compression
    current := Option.none, css := 0, paths := [], completed := 0, splitFileName := ""
    tsf := tsf, finished := [], lastPos := 0 }

/-- `WriterState::finish_current_file`: finish the tar builder if present,
reset the per-archive state, and bump the completed counter (the counter is
bumped even when no archive was open, exactly as in the source). -/
def finishCurrentFile (st : WState) : WState :=
  let finished :=
    match st.current with
    | Option.none => st.finished
    | Option.some es => st.finished ++ [⟨st.splitFileName, es, st.css, st.lastPos⟩]
  { st with current := Option.none, css := 0, paths := [], completed := st.completed + 1,
            finished := finished, lastPos := 0 }

/-- `WriterState::ensure_new_file`: lazily open archive
`<split_to>.<completed padded to 3>`. The sink stack it layers (file →
compressed-hash sink → zstd encoder → uncompressed-hash sink → tar builder)
is modelled separately below; at this level the archive starts as an empty
entry list. -/
def ensureNewFile (st : WState) : WState :=
  match st.current with
  | Option.some _ => st
  | Option.none =>
    { st with splitFileName := st.splitTo ++ "." ++ pad3 st.completed,
              current := Option.some [] }

/-- Append one entry to the (open) current archive. -/
def appendOut (st : WState) (oe : OutEntry) : WState :=
  { st with current := Option.some (st.current.getD [] ++ [oe]) }

/-- Size discovery of `WriterState::write` (lines 164-195): start from the
header size; if some PAX record's key ends with `"size"`, parse the first
such record's value as `u64` and replace the size; if `tar_source_from` is
configured and the entry is a regular file, stat the staged file and take
its on-disk length when it differs. -/
def paxAdjust (s0 : Nat) (pax : List (String × String)) : Except PackErr Nat :=
  match pax.find? (fun p => strEndsWith p.1 "size") with
  | Option.none => Except.ok s0
  | Option.some p =>
    match parseU64 p.2 with
    | Option.none => Except.error PackErr.paxParse
    | Option.some n => Except.ok n

def tsfAdjust (tsf : Option (String → Option Nat)) (e : InEntry) (s1 : Nat) :
    Except PackErr Nat :=
  match tsf with
  | Option.none => Except.ok s1
  | Option.some stat =>
    if e.etype = EType.regular then
      match stat e.path with
      | Option.none => Except.error PackErr.statMissing
      | Option.some len => Except.ok (if len ≠ s1 then len else s1)
    else Except.ok s1

def discoverSize (tsf : Option (String → Option Nat)) (e : InEntry) : Except PackErr Nat :=
  match paxAdjust e.hsize e.pax with
  | Except.error err => Except.error err
  | Except.ok s1 => tsfAdjust tsf e s1

/-- The body of one chunking-loop iteration after the chunk size has been
fixed (lines 238-294 of the source): roll over if the current archive is
full, lazily open the next one, append the split-metadata record and the
chunk data entry, then update the size counter, the path set and the ghost
`lastPos`. Returns the new state, the archive ordinal the pair was written
to, and the two appended entries. -/
def chunkEmit (uid gid : Nat) (path : String) (fileSize startOffset segIdx chunk : Nat)
    (body : List Nat) (st : WState) : WState × Nat × List OutEntry :=
  let st1 := if st.splitSize ≤ st.css then finishCurrentFile st else st
  let st2 := ensureNewFile st1
  let m : SplitMetadata := ⟨path, startOffset, chunk % U32M, fileSize⟩
  let mName := path ++ ".split-metadata." ++ toString segIdx ++ ".json"
  let ce := OutEntry.chunk path chunk uid gid (body.take chunk)
  let st3 := appendOut (appendOut st2 (OutEntry.meta mName m)) ce
  ({ st3 with css := st3.css + chunk,
              paths := insertPath st3.paths path,
              lastPos := fileSize },
    st2.completed,
    [OutEntry.meta mName m, ce])

/-- The chunking `while remaining_size > 0` loop of `WriterState::write`
(lines 232-295). `archRemaining` is `current_archive_remaining_size`,
computed once before the loop. Besides the final writer state the model
returns the `(metadata, archive ordinal)` pair of every emitted segment and
the flat list of emitted output entries, both ghost observations of what
the loop appends. `start_offset` is a `u32`: the stored field is the
running value (kept `< 2^32`), the cast `chunk_size as u32` is `% 2^32`,
and the wrapping of `start_offset += chunk_size as u32` is `% 2^32`
(release-profile semantics; a debug build would abort at the overflow, and
the cast truncates silently in both profiles). -/
def chunkLoop (uid gid : Nat) (path : String) (fileSize archRemaining : Nat) :
    Nat → Nat → Nat → Nat → List Nat → WState →
    Except PackErr (WState × List (SplitMetadata × Nat) × List OutEntry)
  | 0, remaining, _, _, _, st =>
    if remaining = 0 then Except.ok (st, [], []) else Except.error PackErr.fuelExhausted
  | Nat.succ fuel', remaining, startOffset, segIdx, body, st =>
    if remaining = 0 then Except.ok (st, [], [])
    else
      let chunkA := min remaining st.splitSize
      let chunk := if segIdx = 0 then min chunkA archRemaining else chunkA
      let em := chunkEmit uid gid path fileSize startOffset segIdx chunk body st
      match chunkLoop uid gid path fileSize archRemaining fuel' (remaining - chunk)
          ((startOffset + chunk % U32M) % U32M) (segIdx + 1) (body.drop chunk) em.1 with
      | Except.ok (st', segs, outs) =>
        Except.ok (st', (⟨path, startOffset, chunk % U32M, fileSize⟩, em.2.1) :: segs,
          em.2.2 ++ outs)
      | Except.error err => Except.error err

/-- The hard-link validation of `WriterState::write` (lines 209-218): a
hardlink whose target path is not in the current archive's path set is a
fatal assertion failure; a missing link name is the `unwrap` panic. -/
def linkCheck (st : WState) (e : InEntry) : Except PackErr Unit :=
  if e.etype = EType.link then
    match e.linkName with
    | Option.none => Except.error PackErr.missingLinkName
    | Option.some target =>
      if target ∈ st.paths then Except.ok ()
      else Except.error (PackErr.brokenHardlink e.path target)
  else Except.ok ()

/-- Insert the entry's own path into the current path set (line 219). -/
def pathInserted (st : WState) (p : String) : WState :=
  { st with paths := insertPath st.paths p }

/-- The `file_size > split_size` branch of `WriterState::write`: run the
chunking loop with `current_archive_remaining_size` computed up front. -/
def writeChunked (uid gid : Nat) (path : String) (fileSize : Nat) (body : List Nat)
    (st3 : WState) :
    Except PackErr (WState × List (SplitMetadata × Nat) × List OutEntry) :=
  chunkLoop uid gid path fileSize (st3.splitSize - st3.css)
    (fileSize / max st3.splitSize 1 + 3) fileSize 0 0 body st3

/-- The small-entry branch of `WriterState::write`: re-append the entry
with its cloned header and count its discovered size into the payload. -/
def writePlain (e : InEntry) (fileSize : Nat) (st3 : WState) :
    Except PackErr (WState × List (SplitMetadata × Nat) × List OutEntry) :=
  let st4 := { appendOut st3 (OutEntry.plain e) with
               lastPos := if 0 < fileSize then fileSize else st3.lastPos }
  Except.ok ({ st4 with css := st4.css + fileSize }, [], [OutEntry.plain e])

/-- `WriterState::write` after size discovery: rollover check, lazy archive
creation, hard-link validation, path bookkeeping, then either the chunking
loop or a single re-appended entry. -/
def writeSized (st0 : WState) (e : InEntry) (fileSize : Nat) :
    Except PackErr (WState × List (SplitMetadata × Nat) × List OutEntry) :=
  let st1 := if st0.splitSize ≤ st0.css ∧ 0 < fileSize then finishCurrentFile st0 else st0
  let st2 := ensureNewFile st1
  match linkCheck st2 e with
  | Except.error err => Except.error err
  | Except.ok _ =>
    if st2.splitSize < fileSize then
      writeChunked e.uid e.gid e.path fileSize e.body (pathInserted st2 e.path)
    else
      writePlain e fileSize (pathInserted st2 e.path)

/-- `WriterState::write` for one incoming entry. -/
def writeStep (st : WState) (e : InEntry) :
    Except PackErr (WState × List (SplitMetadata × Nat) × List OutEntry) :=
  match discoverSize st.tsf e with
  | Except.error err => Except.error err
  | Except.ok s => writeSized st e s

/-- Ghost projection of `writeStep`: just the emitted segment records with
their archive ordinals (decidable to evaluate on concrete inputs). -/
def writeSegs (st : WState) (e : InEntry) : Except PackErr (List (SplitMetadata × Nat)) :=
  match writeStep st e with
  | Except.ok r => Except.ok r.2.1
  | Except.error err => Except.error err

/-- The driver loop of `main` over the input entry stream, followed by the
final `finish_current_file` (line 512). -/
def packGo : WState → List InEntry → Except PackErr WState
  | st, [] => Except.ok (finishCurrentFile st)
  | st, e :: es =>
    match writeStep st e with
    | Except.ok r => packGo r.1 es
    | Except.error err => Except.error err

/-- Pack an entire input tar stream. -/
def pack (splitSize : Nat) (splitTo compression : String)
    (tsf : Option (String → Option Nat)) (es : List InEntry) : Except PackErr WState :=
  packGo (initWState splitSize splitTo compression tsf) es

/-- Function-free projection of a pack run: the finished archives. -/
def packFinished (splitSize : Nat) (splitTo compression : String)
    (es : List InEntry) : Except PackErr (List Archive) :=
  match pack splitSize splitTo compression Option.none es with
  | Except.ok st => Except.ok st.finished
  | Except.error err => Except.error err

/-! ## Driver (`main`) -/

inductive MainErr where
  | missingSplitSize
  | packFailed (err : PackErr)
  deriving DecidableEq, Repr

/-- The command-line surface, after `clap`/`parse_size` parsing (the string
form of `split_size` and its human-readable parser are external to the
core; the model receives the parsed byte count). -/
structure Cli where
  compression : String
  hashFlag : Bool
  split_to : Option String
  split_size : Option Nat
  unpack_from : Option String
  unpack_to : Option String
  tar_source_from : Option String

/-- The `writer_state` construction of `main` (lines 471-489): when
`split_to` is given, `split_size` must be present (assert), and the writer
state is built from the parsed size with no further validation — in
particular no bound check against `u32::MAX`. -/
def setupWriterState (args : Cli) (stat : String → Option Nat) :
    Except MainErr (Option WState) :=
  match args.split_to with
  | Option.some splitTo =>
    match args.split_size with
    | Option.none => Except.error MainErr.missingSplitSize
    | Option.some sz =>
      Except.ok (Option.some (initWState sz splitTo args.compression
        (args.tar_source_from.map (fun _ => stat))))
  | Option.none => Except.ok Option.none

/-- The entry loop of `main` when no writer state exists: each entry is
read from the tar stream and dropped without any effect. -/
def discardEntries : List InEntry → Unit
  | [] => ()
  | _ :: es => discardEntries es

/-- Pack-mode `main` (lines 471-513, with `unpack_from` absent): build the
optional writer state, fold the entry loop over the input stream, then
finish the current file through the final `map`. -/
def mainPackMode (args : Cli) (stat : String → Option Nat) (entries : List InEntry) :
    Except MainErr (Option WState) :=
  match setupWriterState args stat with
  | Except.error err => Except.error err
  | Except.ok Option.none =>
    let _ := discardEntries entries
    Except.ok Option.none
  | Except.ok (Option.some st) =>
    match packGo st entries with
    | Except.ok st' => Except.ok (Option.some st')
    | Except.error err => Except.error (MainErr.packFailed err)

/-- Archives created by a pack-mode run. -/
def archivesOf : Option WState → List Archive
  | Option.none => []
  | Option.some st => st.finished

/-! ## Hashing pass-through sink and the output-file factory stack -/

/-- Lowercase hexadecimal digit (`data_encoding::HEXLOWER`). -/
def hexDigit (n : Nat) : Char :=
  if n < 10 then Char.ofNat (48 + n) else Char.ofNat (87 + n)

def hexByte (b : Nat) : String :=
  String.mk [hexDigit (b / 16 % 16), hexDigit (b % 16)]

/-- `HEXLOWER.encode` over a digest byte string: lowercase hex, no prefix,
no trailing newline. -/
def hexLower (bs : List Nat) : String :=
  String.join (bs.map hexByte)

/-- `PassThroughHashWriter`: the digest context is modelled as the byte
stream fed to it so far (SHA-256 itself is an external collaborator passed
as a function where needed), plus the sidecar path. -/
structure PTHW where
  ctx : List Nat
  sidecarPath : String
  deriving DecidableEq, Repr

def PTHW.new (p : String) : PTHW := ⟨[], p⟩

/-- `Write::write`: update the digest with the buffer, forward it inward. -/
def PTHW.writeBuf (w : PTHW) (buf : List Nat) : PTHW :=
  ⟨w.ctx ++ buf, w.sidecarPath⟩

inductive RelErr where
  | panicked
  deriving DecidableEq, Repr

/-- `Drop for PassThroughHashWriter` (lines 84-89) with the filesystem
write made explicit: finalize the digest, hex-encode it, and
`std::fs::write(...).unwrap()` it to the sidecar path — so a failed sidecar
write panics. On success the written (path, content) pair is returned. -/
def pthwDrop (sha : List Nat → List Nat)
    (fsWrite : String → String → Except Unit Unit) (w : PTHW) :
    Except RelErr (String × String) :=
  match fsWrite w.sidecarPath (hexLower (sha w.ctx)) with
  | Except.ok _ => Except.ok (w.sidecarPath, hexLower (sha w.ctx))
  | Except.error _ => Except.error RelErr.panicked

/-- Filesystem effects of the output-file factory. -/
inductive FileEffect where
  | create (path : String)
  | writeAll (path : String) (content : String)
  deriving DecidableEq, Repr

/-- The sink stack built by `ensure_new_file` (lines 132-161): raw file ←
compressed-hash sink ← zstd encoder (auto-finish) ← uncompressed-hash sink
← tar builder. The streaming encoder is modelled as deferring its output to
release time, when the whole encoded stream reaches the compressed sink. -/
structure SinkStack where
  uncompressedSink : PTHW
  compressedSink : PTHW
  deriving DecidableEq, Repr

/-- Opening archive `name`: `File::create(name)` is the only filesystem
effect; both hash sinks are constructed holding their sidecar paths, but
neither sidecar file is touched yet. -/
def newStack (name : String) : SinkStack × List FileEffect :=
  (⟨PTHW.new (name ++ ".uncompressed.sha256"), PTHW.new (name ++ ".compressed.sha256")⟩,
   [FileEffect.create name])

/-- A buffer written by the tar builder enters the uncompressed hash sink
and is buffered for the encoder. -/
def SinkStack.writeBuf (s : SinkStack) (buf : List Nat) : SinkStack :=
  { s with uncompressedSink := s.uncompressedSink.writeBuf buf }

/-- Releasing the stack (drop order of the layered writers): the
uncompressed sink's sidecar is written first, then the encoder auto-finish
pushes the encoded stream through the compressed sink, whose sidecar is
written last — so the compressed digest covers the codec footer. -/
def SinkStack.release (sha enc : List Nat → List Nat) (s : SinkStack) : List FileEffect :=
  let comp := s.compressedSink.writeBuf (enc s.uncompressedSink.ctx)
  [FileEffect.writeAll s.uncompressedSink.sidecarPath (hexLower (sha s.uncompressedSink.ctx)),
   FileEffect.writeAll comp.sidecarPath (hexLower (sha comp.ctx))]

/-- Feed a sequence of tar-layer buffers through the stack. -/
def SinkStack.writeAllBufs (s : SinkStack) : List (List Nat) → SinkStack
  | [] => s
  | b :: bs => SinkStack.writeAllBufs (s.writeBuf b) bs

/-! ## Compression codec selection -/

inductive Codec where
  | zstdLevel (quality : Nat)
  | gzipFast
  | identity
  deriving DecidableEq, Repr

/-- The encoder `ensure_new_file` actually constructs (line 152): a zstd
level-3 encoder, unconditionally — the `match` on the compression string
(zstd / gzip / none) is commented out in the source, so the configured
compression name is never consulted. -/
def ensureNewFileCodec (_compressionArg : String) : Codec :=
  Codec.zstdLevel 3

/-- Modelled from the spec: the codec the specification says each archive
is encoded with ("streaming compressor configured with a fixed quality
(default zstd level 3 / gzip fast)", "each `<prefix>.NNN` is a compressed
tar stream per the chosen codec"). -/
def specCodec (compressionArg : String) : Option Codec :=
  if compressionArg = "zstd" then Option.some (Codec.zstdLevel 3)
  else if compressionArg = "gzip" then Option.some Codec.gzipFast
  else if compressionArg = "none" then Option.some Codec.identity
  else Option.none

/-! ## What the unpacker reads -/

/-- The decoding layer `unpack_one_tar` builds between the opened archive
file and its tar reader (line 319: `tar::Archive::new(File::open(..))`):
there is none — no codec is consulted anywhere on the unpack path, and the
commented-out stdin decoder of `main` is the only decoder in the file. -/
def unpackOneTarCodec : Option Codec := Option.none

/-- The byte stream `unpack_one_tar` hands to its tar parser (line 319):
the raw on-disk file content, unchanged. -/
def unpackParserInput (fileContent : List Nat) : List Nat := fileContent

/-- On-disk content of a released archive file: the tar layer's byte
stream pushed through the encoder into the raw file (the hash sinks pass
bytes through unchanged, `ensure_new_file` lines 148-160). -/
def SinkStack.fileContent (enc : List Nat → List Nat) (s : SinkStack) : List Nat :=
  enc s.uncompressedSink.ctx

/-! ## Claim-side predicates -/

instance exceptDecEq {ε α : Type} [DecidableEq ε] [DecidableEq α] : DecidableEq (Except ε α) :=
  fun x y =>
    match x, y with
    | Except.ok a, Except.ok b =>
      match decEq a b with
      | isTrue h => isTrue (congrArg Except.ok h)
      | isFalse h => isFalse (fun hh => h (Except.ok.inj hh))
    | Except.error a, Except.error b =>
      match decEq a b with
      | isTrue h => isTrue (congrArg Except.error h)
      | isFalse h => isFalse (fun hh => h (Except.error.inj hh))
    | Except.ok _, Except.error _ => isFalse (fun hh => Except.noConfusion hh)
    | Except.error _, Except.ok _ => isFalse (fun hh => Except.noConfusion hh)

/-- Offsets of a sequence of chunk sizes laid out consecutively from
`acc`. -/
def offsetsFrom (acc : Nat) : List Nat → List Nat
  | [] => []
  | c :: cs => acc :: offsetsFrom (acc + c) cs

/-- The tiling property of claim C2 for the emitted segment records of one
file: segment 0 starts at offset 0, each later segment starts where the
previous one ended, the chunk sizes sum to the file size, and every
segment's `total_size` records the file size. -/
def segsTile (segs : List (SplitMetadata × Nat)) (total : Nat) : Prop :=
  segs.map (fun s => s.1.start_offset) = offsetsFrom 0 (segs.map (fun s => s.1.chunk_size)) ∧
  (segs.map (fun s => s.1.chunk_size)).sum = total ∧
  ∀ s ∈ segs, s.1.total_size = total

instance (segs : List (SplitMetadata × Nat)) (total : Nat) :
    Decidable (segsTile segs total) := by
  unfold segsTile; infer_instance

/-- An output entry that is a hardlink with the given target. -/
def isHardlinkTo (oe : OutEntry) (t : String) : Prop :=
  ∃ e, oe = OutEntry.plain e ∧ e.etype = EType.link ∧ e.linkName = Option.some t

/-- Hard-link locality of claim C4: in the entry list of one archive, every
hardlink's target path appears as the path of a strictly earlier entry of
the same archive. -/
def hardlinkLocal (l : List OutEntry) : Prop :=
  ∀ i, (h : i < l.length) → ∀ t, isHardlinkTo (l.get ⟨i, h⟩) t →
    ∃ j, ∃ hj : j < l.length, j < i ∧ (l.get ⟨j, hj⟩).epath = t

/-- Declared size of an output entry exceeds the split size (a split file
is visible in an archive through its metadata record's `total_size`). -/
def declaredBig (split : Nat) : OutEntry → Bool
  | OutEntry.meta _ m => decide (split < m.total_size)
  | OutEntry.chunk _ sz _ _ _ => decide (split < sz)
  | OutEntry.plain e => decide (split < e.hsize)

/-- Number of logical entries in an archive whose declared size exceeds the
split size. -/
def bigLogicalCount (split : Nat) (a : Archive) : Nat :=
  (a.entries.filter (declaredBig split)).length

/-- Declared size of the last entry of an archive (0 for an empty archive;
a metadata record declares the length of its JSON body, irrelevant here
since the payload counter never counts it). -/
def lastEntryDeclared (a : Archive) : Nat :=
  match a.entries.getLast? with
  | Option.none => 0
  | Option.some (OutEntry.meta _ _) => 0
  | Option.some (OutEntry.chunk _ sz _ _ _) => sz
  | Option.some (OutEntry.plain e) => e.hsize

/-- The soft size bound exactly as claim C5 states it: (a) exactly one
logical entry whose declared size exceeds `split_size`, or (b) accumulated
uncompressed payload < `split_size` + size of the last entry. -/
def softBoundClaim (split : Nat) (a : Archive) : Prop :=
  bigLogicalCount split a = 1 ∨ a.payload < split + lastEntryDeclared a

/-- Whether the `main` startup path accepts a configuration. -/
def setupAccepts (args : Cli) : Bool :=
  match setupWriterState args (fun _ => Option.none) with
  | Except.ok _ => true
  | Except.error _ => false

/-- Path a filesystem effect touches. -/
def FileEffect.fpath : FileEffect → String
  | FileEffect.create p => p
  | FileEffect.writeAll p _ => p

/-- Ghost projection of `writeStep`: the emitted output entries. -/
def writeOuts (st : WState) (e : InEntry) : Except PackErr (List OutEntry) :=
  match writeStep st e with
  | Except.ok r => Except.ok r.2.2
  | Except.error err => Except.error err

/-! ## Claim C3: compression codec selection -/

/-- C3: each produced archive is claimed to be encoded with the configured
codec; in the source the codec-selection `match` is commented out and
`ensure_new_file` unconditionally constructs a zstd level-3 encoder, so the
`gzip` and `none` settings (which per the spec should give a gzip-fast or
identity stream) still produce zstd level-3 output, contradicting the
crate's own CLI help text ("The output will be compressed with the same
compression type as the input"). -/
theorem c3_codec_hardwired :
    ensureNewFileCodec "zstd" = Codec.zstdLevel 3 ∧
    ensureNewFileCodec "gzip" = Codec.zstdLevel 3 ∧
    ensureNewFileCodec "none" = Codec.zstdLevel 3 ∧
    specCodec "gzip" = Option.some Codec.gzipFast ∧
    specCodec "none" = Option.some Codec.identity := by
  refine ⟨rfl, rfl, rfl, by decide, by decide⟩

/-! ## Claim C6: u32 overflow handling -/

def c6entry : InEntry := ⟨"f", EType.regular, 0, [("size", "4294967297")], Option.none, 0, 0, 0, []⟩

def c6cli : Cli :=
  ⟨"zstd", false, Option.some "p", Option.some U32M, Option.none, Option.none, Option.none⟩

def c6state : WState := { initWState U32M "p" "zstd" Option.none with current := Option.some [] }

set_option maxHeartbeats 1600000 in
/-- C6 counterexample: a configuration with `split_size = 2^32` (above
`u32::MAX`) is accepted at startup, and packing a file of discovered size
`2^32 + 1` succeeds with no fatal error while the recorded metadata is
silently wrong: the first chunk actually covers `2^32` bytes (the emitted
chunk header says so) but its stored u32 `chunk_size` is the truncation 0,
and the second segment's `start_offset` is likewise 0. -/
theorem c6_counterexample :
    setupAccepts c6cli = true ∧
    writeSegs c6state c6entry =
      Except.ok [(⟨"f", 0, 0, U32M + 1⟩, 0), (⟨"f", 0, 1, U32M + 1⟩, 1)] ∧
    writeOuts c6state c6entry =
      Except.ok [OutEntry.meta "f.split-metadata.0.json" ⟨"f", 0, 0, U32M + 1⟩,
                 OutEntry.chunk "f" U32M 0 0 [],
                 OutEntry.meta "f.split-metadata.1.json" ⟨"f", 0, 1, U32M + 1⟩,
                 OutEntry.chunk "f" 1 0 0 []] := by
  refine ⟨rfl, by decide, by decide⟩

def c6entry2 : InEntry := ⟨"g", EType.regular, 0, [("size", "8589934597")], Option.none, 0, 0, 0, []⟩

def c6state2 : WState := initWState (2 ^ 33) "p" "zstd" Option.none

set_option maxHeartbeats 1600000 in
/-- C6 amended: no overflow guard exists — `main` accepts every parsed
`split_size` (including values above `u32::MAX`) without validation, and
when a chunk size or start offset exceeds u32 range the stored
`SplitMetadata` fields are silently truncated mod `2^32` while packing
reports success. -/
theorem c6_no_overflow_guard :
    (∀ (sz : Nat) (splitTo comp : String) (stat : String → Option Nat),
      setupWriterState ⟨comp, false, Option.some splitTo, Option.some sz,
          Option.none, Option.none, Option.none⟩ stat =
        Except.ok (Option.some (initWState sz splitTo comp Option.none))) ∧
    writeSegs c6state2 c6entry2 =
      Except.ok [(⟨"g", 0, 0, 2 ^ 33 + 5⟩, 0), (⟨"g", 0, 5, 2 ^ 33 + 5⟩, 1)] := by
  refine ⟨fun sz splitTo comp stat => rfl, by decide⟩

/-! ## Claim C8: digest sidecar lifecycle -/

def c8name : String := "p.000"

/-- C8 counterexample: at archive-open time (`ensure_new_file`) the only
filesystem effect is creating the archive file itself; neither digest
sidecar file is created then — contradicting the claim that both sidecars
are created when the archive is opened. -/
theorem c8_counterexample :
    (newStack c8name).2 = [FileEffect.create c8name] ∧
    ∀ fx ∈ (newStack c8name).2,
      fx.fpath ≠ c8name ++ ".compressed.sha256" ∧
      fx.fpath ≠ c8name ++ ".uncompressed.sha256" := by
  refine ⟨rfl, by decide⟩

theorem sinkStack_writeAllBufs_spec (s : SinkStack) (bs : List (List Nat)) :
    SinkStack.writeAllBufs s bs =
      ⟨⟨s.uncompressedSink.ctx ++ bs.flatten, s.uncompressedSink.sidecarPath⟩,
        s.compressedSink⟩ := by
  induction bs generalizing s with
  | nil => simp [SinkStack.writeAllBufs]
  | cons b bs ih =>
    simp [SinkStack.writeAllBufs, PTHW.writeBuf, SinkStack.writeBuf, ih]

/-- C8 amended: the sidecar paths are fixed when the archive is opened, but
the sidecar files are created and written only when the hashing sinks are
released; at release each contains exactly the lowercase-hex SHA-256 of
the byte stream that passed through its sink — the uncompressed tar stream
for `<archive>.uncompressed.sha256` and the encoded stream (codec footer
included, thanks to the drop order) for `<archive>.compressed.sha256`,
with no leading prefix. -/
theorem c8_sidecars_at_release (sha enc : List Nat → List Nat) (name : String)
    (bufs : List (List Nat)) :
    (newStack name).2 = [FileEffect.create name] ∧
    SinkStack.release sha enc (SinkStack.writeAllBufs (newStack name).1 bufs) =
      [FileEffect.writeAll (name ++ ".uncompressed.sha256") (hexLower (sha bufs.flatten)),
       FileEffect.writeAll (name ++ ".compressed.sha256") (hexLower (sha (enc bufs.flatten)))] := by
  refine ⟨rfl, ?_⟩
  rw [sinkStack_writeAllBufs_spec]
  simp [SinkStack.release, newStack, PTHW.new, PTHW.writeBuf]

/-! ## Claim C9: failure during sidecar finalization -/

def c9w : PTHW := PTHW.new "x.sha256"

/-- C9 counterexample: with a failing sidecar write, the hashing sink's
release does not complete — it panics — contradicting the claim that the
failure is logged and the release path completes without raising an
error. -/
theorem c9_counterexample :
    pthwDrop (fun _ => []) (fun _ _ => Except.error ()) c9w = Except.error RelErr.panicked := rfl

/-- C9 amended: when writing the finalized hex digest fails during the
hashing sink's release, the release panics (the `unwrap` in the `Drop`
impl): the failure is fatal rather than logged and swallowed. -/
theorem c9_drop_panics_on_write_failure (sha : List Nat → List Nat)
    (fsWrite : String → String → Except Unit Unit) (w : PTHW)
    (h : fsWrite w.sidecarPath (hexLower (sha w.ctx)) = Except.error ()) :
    pthwDrop sha fsWrite w = Except.error RelErr.panicked := by
  unfold pthwDrop
  rw [h]

/-- Witness for `c9_drop_panics_on_write_failure` at a concrete sink and a
concrete failing filesystem write. -/
theorem c9_witness :
    pthwDrop (fun _ => [37]) (fun _ _ => Except.error ()) (PTHW.new "y.sha256") =
      Except.error RelErr.panicked :=
  c9_drop_panics_on_write_failure (fun _ => [37]) (fun _ _ => Except.error ())
    (PTHW.new "y.sha256") rfl

/-! ## Claim C10: pack mode without split_to -/

/-- C10: when pack mode runs without `split_to`, `main` builds no writer
state, the entry loop reads and discards every entry of the input stream,
the process exits successfully, and no output archives (hence no sidecar
files) are created. -/
theorem c10_no_split_to_discards (args : Cli) (stat : String → Option Nat)
    (es : List InEntry) (h : args.split_to = Option.none) :
    mainPackMode args stat es = Except.ok Option.none ∧ archivesOf Option.none = [] := by
  unfold mainPackMode setupWriterState
  rw [h]
  exact ⟨rfl, rfl⟩

/-- Witness for `c10_no_split_to_discards` on a concrete configuration and
a nonempty input stream. -/
theorem c10_witness :
    mainPackMode ⟨"zstd", false, Option.none, Option.none, Option.none, Option.none, Option.none⟩
        (fun _ => Option.none) [⟨"q", EType.regular, 3, [], Option.none, 0, 0, 0, [1, 2, 3]⟩] =
      Except.ok Option.none ∧ archivesOf Option.none = [] :=
  c10_no_split_to_discards
    ⟨"zstd", false, Option.none, Option.none, Option.none, Option.none, Option.none⟩
    (fun _ => Option.none) [⟨"q", EType.regular, 3, [], Option.none, 0, 0, 0, [1, 2, 3]⟩] rfl

/-! ## Claim C7: PAX size discovery -/

/-- C7: for an entry carrying a PAX extension whose key ends with "size"
(the first such record, with a value parsing as a u64 `n`), size discovery
returns `n` in place of the header's declared size — the declared size is
irrelevant to the result — and `WriterState::write` routes every sizing
decision (rollover, chunk-versus-single choice, chunking arithmetic)
through `writeSized` applied to `n`. -/
theorem c7_pax_size_overrides (e : InEntry) (kv : String × String) (n : Nat)
    (hfind : e.pax.find? (fun p => strEndsWith p.1 "size") = Option.some kv)
    (hparse : parseU64 kv.2 = Option.some n) :
    discoverSize Option.none e = Except.ok n ∧
    (∀ h1 h2 : Nat,
      discoverSize Option.none { e with hsize := h1 } =
        discoverSize Option.none { e with hsize := h2 }) ∧
    ∀ st : WState, st.tsf = Option.none → writeStep st e = writeSized st e n := by
  have hpa : ∀ s0 : Nat, paxAdjust s0 e.pax = Except.ok n := by
    intro s0
    unfold paxAdjust
    rw [hfind]
    show (match parseU64 kv.2 with
      | Option.none => Except.error PackErr.paxParse
      | Option.some n => Except.ok n) = Except.ok n
    rw [hparse]
  have hd : discoverSize Option.none e = Except.ok n := by
    unfold discoverSize
    rw [hpa]
    rfl
  refine ⟨hd, ?_, ?_⟩
  · intro h1 h2
    unfold discoverSize
    have hpax : ∀ hh : Nat, ({ e with hsize := hh } : InEntry).pax = e.pax := fun _ => rfl
    rw [hpax, hpax, hpa, hpa]
    rfl
  · intro st hst
    unfold writeStep
    rw [hst, hd]

def c7entry : InEntry := ⟨"s", EType.regular, 0, [("size", "1048576")], Option.none, 0, 0, 0, []⟩

/-- Witness for `c7_pax_size_overrides`: the S5-style sparse entry whose
header declares size 0 but whose PAX `size` record says 1048576. -/
theorem c7_witness :
    discoverSize Option.none c7entry = Except.ok 1048576 ∧
    (∀ h1 h2 : Nat,
      discoverSize Option.none { c7entry with hsize := h1 } =
        discoverSize Option.none { c7entry with hsize := h2 }) ∧
    ∀ st : WState, st.tsf = Option.none → writeStep st c7entry = writeSized st c7entry 1048576 :=
  c7_pax_size_overrides c7entry ("size", "1048576") 1048576 rfl rfl

/-! ## State-projection lemmas -/

@[simp] theorem finishCurrentFile_splitSize (st : WState) :
    (finishCurrentFile st).splitSize = st.splitSize := rfl

@[simp] theorem finishCurrentFile_css (st : WState) : (finishCurrentFile st).css = 0 := rfl

@[simp] theorem finishCurrentFile_completed (st : WState) :
    (finishCurrentFile st).completed = st.completed + 1 := rfl

@[simp] theorem finishCurrentFile_paths (st : WState) : (finishCurrentFile st).paths = [] := rfl

@[simp] theorem finishCurrentFile_tsf (st : WState) : (finishCurrentFile st).tsf = st.tsf := rfl

@[simp] theorem finishCurrentFile_current (st : WState) :
    (finishCurrentFile st).current = Option.none := rfl

@[simp] theorem ensureNewFile_splitSize (st : WState) :
    (ensureNewFile st).splitSize = st.splitSize := by
  unfold ensureNewFile; cases st.current <;> rfl

@[simp] theorem ensureNewFile_css (st : WState) : (ensureNewFile st).css = st.css := by
  unfold ensureNewFile; cases st.current <;> rfl

@[simp] theorem ensureNewFile_completed (st : WState) :
    (ensureNewFile st).completed = st.completed := by
  unfold ensureNewFile; cases st.current <;> rfl

@[simp] theorem ensureNewFile_paths (st : WState) : (ensureNewFile st).paths = st.paths := by
  unfold ensureNewFile; cases st.current <;> rfl

@[simp] theorem ensureNewFile_tsf (st : WState) : (ensureNewFile st).tsf = st.tsf := by
  unfold ensureNewFile; cases st.current <;> rfl

@[simp] theorem ensureNewFile_finished (st : WState) :
    (ensureNewFile st).finished = st.finished := by
  unfold ensureNewFile; cases st.current <;> rfl

@[simp] theorem ensureNewFile_lastPos (st : WState) :
    (ensureNewFile st).lastPos = st.lastPos := by
  unfold ensureNewFile; cases st.current <;> rfl

@[simp] theorem appendOut_splitSize (st : WState) (oe : OutEntry) :
    (appendOut st oe).splitSize = st.splitSize := rfl

@[simp] theorem appendOut_css (st : WState) (oe : OutEntry) :
    (appendOut st oe).css = st.css := rfl

@[simp] theorem appendOut_completed (st : WState) (oe : OutEntry) :
    (appendOut st oe).completed = st.completed := rfl

@[simp] theorem appendOut_paths (st : WState) (oe : OutEntry) :
    (appendOut st oe).paths = st.paths := rfl

@[simp] theorem appendOut_tsf (st : WState) (oe : OutEntry) :
    (appendOut st oe).tsf = st.tsf := rfl

@[simp] theorem appendOut_finished (st : WState) (oe : OutEntry) :
    (appendOut st oe).finished = st.finished := rfl

@[simp] theorem chunkEmit_splitSize (uid gid : Nat) (path : String)
    (fileSize startOffset segIdx chunk : Nat) (body : List Nat) (st : WState) :
    (chunkEmit uid gid path fileSize startOffset segIdx chunk body st).1.splitSize =
      st.splitSize := by
  unfold chunkEmit
  by_cases h : st.splitSize ≤ st.css <;> simp [h]

@[simp] theorem chunkEmit_css (uid gid : Nat) (path : String)
    (fileSize startOffset segIdx chunk : Nat) (body : List Nat) (st : WState) :
    (chunkEmit uid gid path fileSize startOffset segIdx chunk body st).1.css =
      (if st.splitSize ≤ st.css then 0 else st.css) + chunk := by
  unfold chunkEmit
  by_cases h : st.splitSize ≤ st.css <;> simp [h]

@[simp] theorem chunkEmit_completed (uid gid : Nat) (path : String)
    (fileSize startOffset segIdx chunk : Nat) (body : List Nat) (st : WState) :
    (chunkEmit uid gid path fileSize startOffset segIdx chunk body st).1.completed =
      (if st.splitSize ≤ st.css then st.completed + 1 else st.completed) := by
  unfold chunkEmit
  by_cases h : st.splitSize ≤ st.css <;> simp [h]

@[simp] theorem chunkEmit_ord (uid gid : Nat) (path : String)
    (fileSize startOffset segIdx chunk : Nat) (body : List Nat) (st : WState) :
    (chunkEmit uid gid path fileSize startOffset segIdx chunk body st).2.1 =
      (if st.splitSize ≤ st.css then st.completed + 1 else st.completed) := by
  unfold chunkEmit
  by_cases h : st.splitSize ≤ st.css <;> simp [h]

@[simp] theorem chunkEmit_tsf (uid gid : Nat) (path : String)
    (fileSize startOffset segIdx chunk : Nat) (body : List Nat) (st : WState) :
    (chunkEmit uid gid path fileSize startOffset segIdx chunk body st).1.tsf = st.tsf := by
  unfold chunkEmit
  by_cases h : st.splitSize ≤ st.css <;> simp [h]

theorem chunkLoop_rem_zero (uid gid : Nat) (path : String) (fileSize archRemaining : Nat)
    (fuel startOffset segIdx : Nat) (body : List Nat) (st : WState) :
    chunkLoop uid gid path fileSize archRemaining fuel 0 startOffset segIdx body st =
      Except.ok (st, [], []) := by
  cases fuel <;> (unfold chunkLoop; rw [if_pos rfl])

theorem range_map_add (b n : Nat) :
    (List.range (n + 1)).map (fun k => b + k) = b :: (List.range n).map (fun k => b + 1 + k) := by
  rw [List.range_succ_eq_map, List.map_cons, List.map_map]
  refine congrArg₂ List.cons (by omega) ?_
  refine List.map_congr_left ?_
  intro k _
  simp [Function.comp]
  omega

theorem chunkLoop_spec (uid gid : Nat) (path : String) (fileSize : Nat) :
    ∀ (fuel remaining startOffset segIdx archRemaining : Nat) (body : List Nat)
      (st st' : WState) (segs : List (SplitMetadata × Nat)) (outs : List OutEntry),
      chunkLoop uid gid path fileSize archRemaining fuel remaining startOffset segIdx body st
        = Except.ok (st', segs, outs) →
      0 < st.splitSize → fileSize < U32M → startOffset + remaining = fileSize →
      (remaining = 0 ∨
        (segIdx = 0 ∧ st.css < st.splitSize ∧ archRemaining = st.splitSize - st.css ∧
          remaining = fileSize ∧ st.splitSize < fileSize) ∨
        (st.css = st.splitSize ∧ 0 < remaining ∧ segIdx ≠ 0)) →
      segs.map (fun sg => sg.1.start_offset) =
          offsetsFrom startOffset (segs.map (fun sg => sg.1.chunk_size)) ∧
        (segs.map (fun sg => sg.1.chunk_size)).sum = remaining ∧
        (∀ sg ∈ segs, sg.1.total_size = fileSize) ∧
        segs.map (fun sg => sg.2) =
          (List.range segs.length).map
            (fun k => (if st.splitSize ≤ st.css then st.completed + 1 else st.completed) + k) := by
  intro fuel
  induction fuel with
  | zero =>
    intro remaining startOffset segIdx archRemaining body st st' segs outs hok hsplit hU hoff hinv
    by_cases hr : remaining = 0
    · subst hr
      rw [chunkLoop_rem_zero] at hok
      simp only [Except.ok.injEq, Prod.mk.injEq] at hok
      obtain ⟨-, hsegs, -⟩ := hok
      subst hsegs
      simp [offsetsFrom]
    · unfold chunkLoop at hok
      rw [if_neg hr] at hok
      exact absurd hok (by simp)
  | succ fuel ih =>
    intro remaining startOffset segIdx archRemaining body st st' segs outs hok hsplit hU hoff hinv
    by_cases hr : remaining = 0
    · subst hr
      rw [chunkLoop_rem_zero] at hok
      simp only [Except.ok.injEq, Prod.mk.injEq] at hok
      obtain ⟨-, hsegs, -⟩ := hok
      subst hsegs
      simp [offsetsFrom]
    · unfold chunkLoop at hok
      rw [if_neg hr] at hok
      dsimp only at hok
      set c := (if segIdx = 0 then min (min remaining st.splitSize) archRemaining
        else min remaining st.splitSize) with hc
      have hremle : remaining ≤ fileSize := by omega
      rcases hinv with hinv | ⟨hseg0, hcsslt, harch, hremf, hbigf⟩ | ⟨hcss, hrpos, hsegpos⟩
      · exact absurd hinv hr
      · -- segment 0: the chunk tops up the current archive to split_size
        have hcval : c = st.splitSize - st.css := by
          rw [hc, if_pos hseg0, harch, hremf,
            Nat.min_eq_right (Nat.le_of_lt hbigf),
            Nat.min_eq_right (Nat.sub_le _ _)]
        have hcpos : 0 < c := by rw [hcval]; omega
        have hcler : c ≤ remaining := by rw [hcval, hremf]; omega
        have hcmod : c % U32M = c := Nat.mod_eq_of_lt (by omega)
        have hsmod : (startOffset + c % U32M) % U32M = startOffset + c := by
          rw [hcmod]; exact Nat.mod_eq_of_lt (by omega)
        have hnotfull : ¬ st.splitSize ≤ st.css := Nat.not_le.mpr hcsslt
        cases hrec : chunkLoop uid gid path fileSize archRemaining fuel (remaining - c)
            ((startOffset + c % U32M) % U32M) (segIdx + 1) (body.drop c)
            (chunkEmit uid gid path fileSize startOffset segIdx c body st).1 with
        | error err =>
          rw [hrec] at hok
          exact absurd hok (by simp)
        | ok trip =>
          obtain ⟨stR, segsR, outsR⟩ := trip
          rw [hrec] at hok
          simp only [Except.ok.injEq, Prod.mk.injEq] at hok
          obtain ⟨hst', hsegs, houts⟩ := hok
          subst hsegs
          have hemcss : (chunkEmit uid gid path fileSize startOffset segIdx c body st).1.css
              = st.splitSize := by
            rw [chunkEmit_css, if_neg hnotfull, hcval]
            omega
          have hemsplit :
              (chunkEmit uid gid path fileSize startOffset segIdx c body st).1.splitSize
              = st.splitSize := chunkEmit_splitSize ..
          have hemcomp :
              (chunkEmit uid gid path fileSize startOffset segIdx c body st).1.completed
              = st.completed := by rw [chunkEmit_completed, if_neg hnotfull]
          have ihres := ih (remaining - c) ((startOffset + c % U32M) % U32M) (segIdx + 1)
            archRemaining (body.drop c) _ stR segsR outsR hrec
            (by rw [hemsplit]; exact hsplit) hU
            (by rw [hsmod]; omega)
            (by
              by_cases hrc : remaining - c = 0
              · exact Or.inl hrc
              · exact Or.inr (Or.inr
                  ⟨by rw [hemcss, hemsplit], Nat.pos_of_ne_zero hrc, by omega⟩))
          obtain ⟨ihOff, ihSum, ihTot, ihOrd⟩ := ihres
          refine ⟨?_, ?_, ?_, ?_⟩
          · simp only [List.map_cons, offsetsFrom, hcmod]
            rw [ihOff, hsmod]
          · simp only [List.map_cons, List.sum_cons, hcmod]
            omega
          · intro sg hsg
            rcases List.mem_cons.mp hsg with hsg | hsg
            · rw [hsg]
            · exact ihTot sg hsg
          · have hbase :
                (if (chunkEmit uid gid path fileSize startOffset segIdx c body st).1.splitSize ≤
                    (chunkEmit uid gid path fileSize startOffset segIdx c body st).1.css then
                  (chunkEmit uid gid path fileSize startOffset segIdx c body st).1.completed + 1
                else (chunkEmit uid gid path fileSize startOffset segIdx c body st).1.completed)
                = st.completed + 1 := by
              rw [hemcss, hemsplit, hemcomp, if_pos (Nat.le_refl _)]
            simp only [hbase] at ihOrd
            simp only [List.map_cons, List.length_cons, chunkEmit_ord, if_neg hnotfull]
            rw [range_map_add, ihOrd]
      · -- later segments: the previous iteration filled the archive exactly
        have hfull : st.splitSize ≤ st.css := Nat.le_of_eq hcss.symm
        have hcval : c = min remaining st.splitSize := by rw [hc, if_neg hsegpos]
        have hcpos : 0 < c := by rw [hcval]; exact Nat.lt_min.mpr ⟨hrpos, hsplit⟩
        have hcler : c ≤ remaining := by rw [hcval]; exact Nat.min_le_left _ _
        have hcmod : c % U32M = c := Nat.mod_eq_of_lt (by omega)
        have hsmod : (startOffset + c % U32M) % U32M = startOffset + c := by
          rw [hcmod]; exact Nat.mod_eq_of_lt (by omega)
        have hcsplit : remaining - c ≠ 0 → c = st.splitSize := by
          intro h
          rcases Nat.le_total remaining st.splitSize with hle | hle
          · rw [hcval, Nat.min_eq_left hle] at h
            omega
          · rw [hcval, Nat.min_eq_right hle]
        cases hrec : chunkLoop uid gid path fileSize archRemaining fuel (remaining - c)
            ((startOffset + c % U32M) % U32M) (segIdx + 1) (body.drop c)
            (chunkEmit uid gid path fileSize startOffset segIdx c body st).1 with
        | error err =>
          rw [hrec] at hok
          exact absurd hok (by simp)
        | ok trip =>
          obtain ⟨stR, segsR, outsR⟩ := trip
          rw [hrec] at hok
          simp only [Except.ok.injEq, Prod.mk.injEq] at hok
          obtain ⟨hst', hsegs, houts⟩ := hok
          subst hsegs
          have hemcss : (chunkEmit uid gid path fileSize startOffset segIdx c body st).1.css
              = c := by
            rw [chunkEmit_css, if_pos hfull, Nat.zero_add]
          have hemsplit :
              (chunkEmit uid gid path fileSize startOffset segIdx c body st).1.splitSize
              = st.splitSize := chunkEmit_splitSize ..
          have hemcomp :
              (chunkEmit uid gid path fileSize startOffset segIdx c body st).1.completed
              = st.completed + 1 := by rw [chunkEmit_completed, if_pos hfull]
          by_cases hrc : remaining - c = 0
          · -- final segment of the file
            rw [hrc, chunkLoop_rem_zero] at hrec
            simp only [Except.ok.injEq, Prod.mk.injEq] at hrec
            obtain ⟨-, hsegsR, -⟩ := hrec
            subst hsegsR
            refine ⟨by simp [offsetsFrom], ?_, ?_, ?_⟩
            · simp only [List.map_cons, List.map_nil, List.sum_cons, List.sum_nil, hcmod]
              omega
            · intro sg hsg
              rcases List.mem_cons.mp hsg with hsg | hsg
              · rw [hsg]
              · exact absurd hsg (List.not_mem_nil sg)
            · simp [chunkEmit_ord, if_pos hfull, List.range_succ]
          · -- more segments follow: the archive was filled exactly
            have hceq : c = st.splitSize := hcsplit hrc
            have ihres := ih (remaining - c) ((startOffset + c % U32M) % U32M) (segIdx + 1)
              archRemaining (body.drop c) _ stR segsR outsR hrec
              (by rw [hemsplit]; exact hsplit) hU
              (by rw [hsmod]; omega)
              (Or.inr (Or.inr
                ⟨by rw [hemcss, hemsplit, hceq], Nat.pos_of_ne_zero hrc, by omega⟩))
            obtain ⟨ihOff, ihSum, ihTot, ihOrd⟩ := ihres
            refine ⟨?_, ?_, ?_, ?_⟩
            · simp only [List.map_cons, offsetsFrom, hcmod]
              rw [ihOff, hsmod]
            · simp only [List.map_cons, List.sum_cons, hcmod]
              omega
            · intro sg hsg
              rcases List.mem_cons.mp hsg with hsg | hsg
              · rw [hsg]
              · exact ihTot sg hsg
            · have hbase :
                  (if (chunkEmit uid gid path fileSize startOffset segIdx c body st).1.splitSize ≤
                      (chunkEmit uid gid path fileSize startOffset segIdx c body st).1.css then
                    (chunkEmit uid gid path fileSize startOffset segIdx c body st).1.completed + 1
                  else (chunkEmit uid gid path fileSize startOffset segIdx c body st).1.completed)
                  = st.completed + 1 + 1 := by
                rw [hemcss, hemsplit, hemcomp, hceq, if_pos (Nat.le_refl _)]
              simp only [hbase] at ihOrd
              simp only [List.map_cons, List.length_cons, chunkEmit_ord, if_pos hfull]
              rw [range_map_add, ihOrd]

@[simp] theorem pathInserted_splitSize (st : WState) (p : String) :
    (pathInserted st p).splitSize = st.splitSize := rfl

@[simp] theorem pathInserted_css (st : WState) (p : String) :
    (pathInserted st p).css = st.css := rfl

@[simp] theorem pathInserted_completed (st : WState) (p : String) :
    (pathInserted st p).completed = st.completed := rfl

@[simp] theorem pathInserted_current (st : WState) (p : String) :
    (pathInserted st p).current = st.current := rfl

@[simp] theorem pathInserted_finished (st : WState) (p : String) :
    (pathInserted st p).finished = st.finished := rfl

@[simp] theorem pathInserted_tsf (st : WState) (p : String) :
    (pathInserted st p).tsf = st.tsf := rfl

/-! ## Claim C2: chunk tiling -/

theorem chunkLoop_splitZero (uid gid : Nat) (path : String) (fileSize archRemaining : Nat) :
    ∀ (fuel remaining startOffset segIdx : Nat) (body : List Nat) (st : WState),
      st.splitSize = 0 → 0 < remaining →
      chunkLoop uid gid path fileSize archRemaining fuel remaining startOffset segIdx body st =
        Except.error PackErr.fuelExhausted := by
  intro fuel
  induction fuel with
  | zero =>
    intro remaining startOffset segIdx body st h0 hrpos
    unfold chunkLoop
    rw [if_neg (by omega)]
  | succ fuel ih =>
    intro remaining startOffset segIdx body st h0 hrpos
    unfold chunkLoop
    rw [if_neg (by omega)]
    dsimp only
    have hchunk : (if segIdx = 0 then min (min remaining st.splitSize) archRemaining
        else min remaining st.splitSize) = 0 := by
      rw [h0]
      by_cases hsg : segIdx = 0 <;> simp [hsg]
    rw [hchunk]
    rw [ih (remaining - 0) ((startOffset + 0 % U32M) % U32M) (segIdx + 1) (body.drop 0)
      (chunkEmit uid gid path fileSize startOffset segIdx 0 body st).1
      (by rw [chunkEmit_splitSize]; exact h0) (by omega)]

/-- Tiling and archive monotonicity for the whole chunked write of one
entry: specialization of `chunkLoop_spec` to the entry conditions of
`writeChunked`. -/
theorem writeChunked_spec (uid gid : Nat) (path : String) (s : Nat) (body : List Nat)
    (st3 stR : WState) (segs : List (SplitMetadata × Nat)) (outs : List OutEntry)
    (hok : writeChunked uid gid path s body st3 = Except.ok (stR, segs, outs))
    (hcss : 0 < st3.splitSize → st3.css < st3.splitSize)
    (hbig : st3.splitSize < s) (hlt : s < U32M) :
    segsTile segs s ∧ List.Chain' (fun a b => a < b) (segs.map (fun sg => sg.2)) := by
  unfold writeChunked at hok
  have hsplitpos : 0 < st3.splitSize := by
    by_contra h0
    rw [chunkLoop_splitZero uid gid path s (st3.splitSize - st3.css) _ s 0 0 body st3
      (by omega) (by omega)] at hok
    exact absurd hok (by simp)
  have hres := chunkLoop_spec uid gid path s (s / max st3.splitSize 1 + 3) s 0 0
    (st3.splitSize - st3.css) body st3 stR segs outs hok hsplitpos hlt (by omega)
    (Or.inr (Or.inl ⟨rfl, hcss hsplitpos, rfl, rfl, hbig⟩))
  obtain ⟨hOff, hSum, hTot, hOrd⟩ := hres
  refine ⟨⟨hOff, hSum, hTot⟩, ?_⟩
  rw [hOrd]
  refine List.Pairwise.chain' ?_
  rw [List.pairwise_map]
  refine List.Pairwise.imp ?_ (List.pairwise_lt_range _)
  intro a b hab
  omega

/-- C2 amended: for an entry whose discovered size exceeds `split_size`
and is below `2^32` (so the u32 metadata fields do not wrap), the emitted
segments tile `[0, total_size)` exactly — segment 0 starts at offset 0,
each later segment starts where the previous one ended, the chunk sizes
sum to the discovered size, every segment records it as `total_size` —
and each later segment lands in a strictly later archive than its
predecessor (so segment k−1 is in an archive of index ≤ index(k) − 1). -/
theorem c2_chunk_tiling (st : WState) (e : InEntry) (s : Nat)
    (segs : List (SplitMetadata × Nat))
    (hok : writeSegs st e = Except.ok segs)
    (hs : discoverSize st.tsf e = Except.ok s)
    (hbig : st.splitSize < s)
    (hlt : s < U32M) :
    segsTile segs s ∧ List.Chain' (fun a b => a < b) (segs.map (fun sg => sg.2)) := by
  have hspos : 0 < s := by omega
  unfold writeSegs at hok
  cases hw : writeStep st e with
  | error err => rw [hw] at hok; exact absurd hok (by simp)
  | ok r =>
    rw [hw] at hok
    simp only [Except.ok.injEq] at hok
    subst hok
    unfold writeStep at hw
    rw [hs] at hw
    unfold writeSized at hw
    dsimp only at hw
    by_cases hro : st.splitSize ≤ st.css ∧ 0 < s
    · rw [if_pos hro] at hw
      cases hchk : linkCheck (ensureNewFile (finishCurrentFile st)) e with
      | error err => rw [hchk] at hw; exact absurd hw (by simp)
      | ok u =>
        rw [hchk] at hw
        rw [if_pos (by simpa using hbig)] at hw
        obtain ⟨r1, r2, r3⟩ := r
        exact writeChunked_spec e.uid e.gid e.path s e.body _ r1 r2 r3 hw
          (by intro hp; simpa using hp) (by simpa using hbig) hlt
    · rw [if_neg hro] at hw
      cases hchk : linkCheck (ensureNewFile st) e with
      | error err => rw [hchk] at hw; exact absurd hw (by simp)
      | ok u =>
        rw [hchk] at hw
        rw [if_pos (by simpa using hbig)] at hw
        obtain ⟨r1, r2, r3⟩ := r
        exact writeChunked_spec e.uid e.gid e.path s e.body _ r1 r2 r3 hw
          (by intro hp; simp; omega) (by simpa using hbig) hlt

def c2wentry : InEntry := ⟨"h", EType.regular, 8, [], Option.none, 0, 0, 0, [1, 2, 3, 4, 5, 6, 7, 8]⟩

def c2wstate : WState := { initWState 3 "p" "zstd" Option.none with css := 2, current := Option.some [] }

def c2wsegs : List (SplitMetadata × Nat) :=
  [(⟨"h", 0, 1, 8⟩, 0), (⟨"h", 1, 3, 8⟩, 1), (⟨"h", 4, 3, 8⟩, 2), (⟨"h", 7, 1, 8⟩, 3)]

set_option maxHeartbeats 1600000 in
/-- Witness for `c2_chunk_tiling`: an 8-byte file split at `split_size = 3`
from a partially filled archive, giving segments (0,1), (1,3), (4,3), (7,1)
in archives 0..3. -/
theorem c2_witness :
    segsTile c2wsegs 8 ∧ List.Chain' (fun a b => a < b) (c2wsegs.map (fun sg => sg.2)) :=
  c2_chunk_tiling c2wstate c2wentry 8 c2wsegs (by decide) (by decide) (by decide) (by decide)

def c2centry : InEntry := ⟨"gg", EType.regular, 0, [("size", "8589934592")], Option.none, 0, 0, 0, []⟩

def c2cstate : WState := initWState (U32M - 1) "p" "zstd" Option.none

set_option maxHeartbeats 1600000 in
/-- C2 counterexample: an 8 GiB file (discovered via PAX) split at
`split_size = 2^32 − 1` packs successfully, but the third segment's
recorded u32 `start_offset` has wrapped (`2^32 − 2` instead of
`2·(2^32 − 1)`), so the recorded segments do not tile `[0, total_size)`
even though the claim, as stated, quantifies over every file whose
discovered size exceeds `split_size`. -/
theorem c2_counterexample :
    writeSegs c2cstate c2centry = Except.ok
      [(⟨"gg", 0, U32M - 1, 2 ^ 33⟩, 0),
       (⟨"gg", U32M - 1, U32M - 1, 2 ^ 33⟩, 1),
       (⟨"gg", U32M - 2, 2, 2 ^ 33⟩, 2)] ∧
    discoverSize c2cstate.tsf c2centry = Except.ok (2 ^ 33) ∧
    c2cstate.splitSize < 2 ^ 33 ∧
    ¬ segsTile [(⟨"gg", 0, U32M - 1, 2 ^ 33⟩, 0),
       (⟨"gg", U32M - 1, U32M - 1, 2 ^ 33⟩, 1),
       (⟨"gg", U32M - 2, 2, 2 ^ 33⟩, 2)] (2 ^ 33) := by
  refine ⟨by decide, by decide, by decide, by decide⟩

@[simp] theorem ensureNewFile_current (st : WState) :
    (ensureNewFile st).current = Option.some (st.current.getD []) := by
  unfold ensureNewFile
  cases hc : st.current with
  | none => rfl
  | some l => exact hc

@[simp] theorem appendOut_current (st : WState) (oe : OutEntry) :
    (appendOut st oe).current = Option.some (st.current.getD [] ++ [oe]) := rfl

theorem hardlinkLocal_nil : hardlinkLocal [] := by
  intro i h
  simp at h

theorem not_isHardlinkTo_meta (name : String) (m : SplitMetadata) (t : String) :
    ¬ isHardlinkTo (OutEntry.meta name m) t := by
  rintro ⟨e, he, -, -⟩
  cases he

theorem not_isHardlinkTo_chunk (p : String) (sz u g : Nat) (b : List Nat) (t : String) :
    ¬ isHardlinkTo (OutEntry.chunk p sz u g b) t := by
  rintro ⟨e, he, -, -⟩
  cases he

/-- Appending an entry whose hardlink targets (if any) already appear in
the list preserves hard-link locality. -/
theorem hardlinkLocal_append (l : List OutEntry) (x : OutEntry)
    (hl : hardlinkLocal l)
    (hx : ∀ t, isHardlinkTo x t → ∃ oe ∈ l, oe.epath = t) :
    hardlinkLocal (l ++ [x]) := by
  intro i h t hlk
  by_cases hi : i < l.length
  · rw [List.get_append i hi] at hlk
    obtain ⟨j, hj, hji, hpath⟩ := hl i hi t hlk
    refine ⟨j, by simp; omega, hji, ?_⟩
    rw [List.get_append j hj]
    exact hpath
  · have hilen : i = l.length := by
      have := h
      simp at this
      omega
    subst hilen
    rw [List.get_of_append rfl rfl] at hlk
    obtain ⟨oe, hoe, hpath⟩ := hx t hlk
    obtain ⟨⟨j, hj⟩, hget⟩ := List.mem_iff_get.mp hoe
    refine ⟨j, by simp; omega, hj, ?_⟩
    rw [List.get_append j hj, hget, hpath]

/-- Every path in the set is the path of some entry of the list. -/
def pathsCovered (l : List OutEntry) (ps : List String) : Prop :=
  ∀ q ∈ ps, ∃ oe ∈ l, oe.epath = q

/-- The hard-link invariant of the writer state: every finished archive is
hard-link local, the open archive is hard-link local, and the path set is
covered by the open archive's entries. -/
def C4Inv (st : WState) : Prop :=
  (∀ a ∈ st.finished, hardlinkLocal a.entries) ∧
  (∀ l, st.current = Option.some l → hardlinkLocal l ∧ pathsCovered l st.paths) ∧
  (st.current = Option.none → st.paths = [])

theorem C4Inv_init (splitSize : Nat) (splitTo compression : String)
    (tsf : Option (String → Option Nat)) :
    C4Inv (initWState splitSize splitTo compression tsf) := by
  refine ⟨?_, ?_, ?_⟩
  · intro a ha
    simp [initWState] at ha
  · intro l hl
    cases hl
  · intro _
    rfl

theorem C4Inv_finish (st : WState) (h : C4Inv st) : C4Inv (finishCurrentFile st) := by
  obtain ⟨hfin, hcur, -⟩ := h
  refine ⟨?_, ?_, ?_⟩
  · intro a ha
    unfold finishCurrentFile at ha
    cases hc : st.current with
    | none =>
      rw [hc] at ha
      exact hfin a ha
    | some l =>
      rw [hc] at ha
      simp only at ha
      rcases List.mem_append.mp ha with ha | ha
      · exact hfin a ha
      · rcases List.mem_singleton.mp ha with rfl
        exact (hcur l hc).1
  · intro l hl
    cases hl
  · intro _
    rfl

theorem C4Inv_ensure (st : WState) (h : C4Inv st) : C4Inv (ensureNewFile st) := by
  obtain ⟨hfin, hcur, hnone⟩ := h
  refine ⟨by simpa using hfin, ?_, by simp⟩
  intro l hl
  rw [ensureNewFile_current] at hl
  cases hc : st.current with
  | none =>
    rw [hc] at hl
    simp only [Option.getD, Option.some.injEq] at hl
    subst hl
    rw [ensureNewFile_paths, hnone hc]
    exact ⟨hardlinkLocal_nil, by intro q hq; simp at hq⟩
  | some l0 =>
    rw [hc] at hl
    simp only [Option.getD, Option.some.injEq] at hl
    subst hl
    rw [ensureNewFile_paths]
    exact hcur l0 hc

/-- Weakened invariant used inside a chunked write of `path`: the path set
may already contain `path` before its chunk entry is appended. -/
def C4InvW (path : String) (st : WState) : Prop :=
  (∀ a ∈ st.finished, hardlinkLocal a.entries) ∧
  (∀ l, st.current = Option.some l → hardlinkLocal l ∧
    ∀ q ∈ st.paths, (∃ oe ∈ l, oe.epath = q) ∨ q = path) ∧
  (st.current = Option.none → st.paths = [])

theorem C4Inv.weaken (path : String) (st : WState) (h : C4Inv st) : C4InvW path st := by
  obtain ⟨hfin, hcur, hnone⟩ := h
  refine ⟨hfin, ?_, hnone⟩
  intro l hl
  obtain ⟨h1, h2⟩ := hcur l hl
  exact ⟨h1, fun q hq => Or.inl (h2 q hq)⟩

theorem C4InvW_finish (path : String) (st : WState) (h : C4InvW path st) :
    C4Inv (finishCurrentFile st) := by
  obtain ⟨hfin, hcur, -⟩ := h
  refine ⟨?_, ?_, fun _ => rfl⟩
  · intro a ha
    unfold finishCurrentFile at ha
    cases hc : st.current with
    | none =>
      rw [hc] at ha
      exact hfin a ha
    | some l =>
      rw [hc] at ha
      simp only at ha
      rcases List.mem_append.mp ha with ha | ha
      · exact hfin a ha
      · rcases List.mem_singleton.mp ha with rfl
        exact (hcur l hc).1
  · intro l hl
    cases hl

/-- One chunk-pair emission restores the full invariant: the appended chunk
entry carries `path` itself, so the freshly inserted path is covered. -/
theorem chunkEmit_c4 (uid gid : Nat) (path : String)
    (fileSize startOffset segIdx c : Nat) (body : List Nat) (st : WState)
    (h : C4InvW path st) :
    C4Inv (chunkEmit uid gid path fileSize startOffset segIdx c body st).1 := by
  have hstep : ∀ stb : WState, C4InvW path stb →
      C4Inv { appendOut (appendOut (ensureNewFile stb)
          (OutEntry.meta (path ++ ".split-metadata." ++ toString segIdx ++ ".json")
            ⟨path, startOffset, c % U32M, fileSize⟩))
          (OutEntry.chunk path c uid gid (body.take c)) with
        css := (appendOut (appendOut (ensureNewFile stb)
          (OutEntry.meta (path ++ ".split-metadata." ++ toString segIdx ++ ".json")
            ⟨path, startOffset, c % U32M, fileSize⟩))
          (OutEntry.chunk path c uid gid (body.take c))).css + c,
        paths := insertPath (appendOut (appendOut (ensureNewFile stb)
          (OutEntry.meta (path ++ ".split-metadata." ++ toString segIdx ++ ".json")
            ⟨path, startOffset, c % U32M, fileSize⟩))
          (OutEntry.chunk path c uid gid (body.take c))).paths path,
        lastPos := fileSize } := by
    intro stb hb
    obtain ⟨hfin, hcur, hnone⟩ := hb
    set L := stb.current.getD [] with hL
    have hLloc : hardlinkLocal L ∧ ∀ q ∈ stb.paths, (∃ oe ∈ L, oe.epath = q) ∨ q = path := by
      cases hc : stb.current with
      | none =>
        rw [hL, hc]
        refine ⟨hardlinkLocal_nil, ?_⟩
        intro q hq
        rw [hnone hc] at hq
        simp at hq
      | some l0 =>
        rw [hL, hc]
        exact hcur l0 hc
    refine ⟨by simpa using hfin, ?_, by simp⟩
    intro l hl
    simp only [appendOut_current, ensureNewFile_current] at hl
    simp only [Option.getD, Option.some.injEq] at hl
    constructor
    · rw [← hl]
      refine hardlinkLocal_append _ _ ?_ ?_
      · refine hardlinkLocal_append _ _ hLloc.1 ?_
        intro t ht
        exact absurd ht (not_isHardlinkTo_meta _ _ _)
      · intro t ht
        exact absurd ht (not_isHardlinkTo_chunk _ _ _ _ _ _)
    · intro q hq
      simp only [appendOut_paths, ensureNewFile_paths] at hq
      unfold insertPath at hq
      have hq2 : q ∈ stb.paths ∨ q = path := by
        by_cases hmem : path ∈ stb.paths
        · rw [if_pos hmem] at hq
          exact Or.inl hq
        · rw [if_neg hmem] at hq
          rcases List.mem_append.mp hq with hq | hq
          · exact Or.inl hq
          · exact Or.inr (List.mem_singleton.mp hq)
      rcases hq2 with hq2 | hq2
      · rcases hLloc.2 q hq2 with ⟨oe, hoe, hp⟩ | rfl
        · refine ⟨oe, ?_, hp⟩
          rw [← hl]
          exact List.mem_append_left _ (List.mem_append_left _ hoe)
        · refine ⟨OutEntry.chunk q c uid gid (body.take c), ?_, rfl⟩
          rw [← hl]
          exact List.mem_append_right _ (List.mem_singleton_self _)
      · subst hq2
        refine ⟨OutEntry.chunk q c uid gid (body.take c), ?_, rfl⟩
        rw [← hl]
        exact List.mem_append_right _ (List.mem_singleton_self _)
  unfold chunkEmit
  dsimp only
  by_cases hf : st.splitSize ≤ st.css
  · rw [if_pos hf]
    exact hstep (finishCurrentFile st)
      (C4Inv.weaken path _ (C4InvW_finish path st ⟨h.1, h.2.1, h.2.2⟩))
  · rw [if_neg hf]
    exact hstep st h

theorem chunkLoop_c4 (uid gid : Nat) (path : String) (fileSize archRemaining : Nat) :
    ∀ (fuel remaining startOffset segIdx : Nat) (body : List Nat) (st stR : WState)
      (segs : List (SplitMetadata × Nat)) (outs : List OutEntry),
      chunkLoop uid gid path fileSize archRemaining fuel remaining startOffset segIdx body st
        = Except.ok (stR, segs, outs) →
      C4InvW path st →
      (remaining = 0 → C4Inv st) →
      C4Inv stR := by
  intro fuel
  induction fuel with
  | zero =>
    intro remaining startOffset segIdx body st stR segs outs hok hw h0
    by_cases hr : remaining = 0
    · subst hr
      rw [chunkLoop_rem_zero] at hok
      simp only [Except.ok.injEq, Prod.mk.injEq] at hok
      obtain ⟨hst, -, -⟩ := hok
      rw [← hst]
      exact h0 rfl
    · unfold chunkLoop at hok
      rw [if_neg hr] at hok
      exact absurd hok (by simp)
  | succ fuel ih =>
    intro remaining startOffset segIdx body st stR segs outs hok hw h0
    by_cases hr : remaining = 0
    · subst hr
      rw [chunkLoop_rem_zero] at hok
      simp only [Except.ok.injEq, Prod.mk.injEq] at hok
      obtain ⟨hst, -, -⟩ := hok
      rw [← hst]
      exact h0 rfl
    · unfold chunkLoop at hok
      rw [if_neg hr] at hok
      dsimp only at hok
      set c := (if segIdx = 0 then min (min remaining st.splitSize) archRemaining
        else min remaining st.splitSize) with hc
      cases hrec : chunkLoop uid gid path fileSize archRemaining fuel (remaining - c)
          ((startOffset + c % U32M) % U32M) (segIdx + 1) (body.drop c)
          (chunkEmit uid gid path fileSize startOffset segIdx c body st).1 with
      | error err =>
        rw [hrec] at hok
        exact absurd hok (by simp)
      | ok trip =>
        obtain ⟨stN, segsN, outsN⟩ := trip
        rw [hrec] at hok
        simp only [Except.ok.injEq, Prod.mk.injEq] at hok
        obtain ⟨hst, -, -⟩ := hok
        rw [← hst]
        have hfull := chunkEmit_c4 uid gid path fileSize startOffset segIdx c body st hw
        exact ih (remaining - c) ((startOffset + c % U32M) % U32M) (segIdx + 1) (body.drop c)
          _ stN segsN outsN hrec (C4Inv.weaken path _ hfull) (fun _ => hfull)

/-- A single re-appended entry preserves the invariant, given that any
hardlink target it carries is covered by the open archive. -/
theorem writePlain_c4 (e : InEntry) (fileSize : Nat) (st3 : WState) (r : WState ×
      List (SplitMetadata × Nat) × List OutEntry)
    (hok : writePlain e fileSize st3 = Except.ok r)
    (hfin : ∀ a ∈ st3.finished, hardlinkLocal a.entries)
    (hcur : ∀ l, st3.current = Option.some l → hardlinkLocal l ∧
      (∀ q ∈ st3.paths, (∃ oe ∈ l, oe.epath = q) ∨ q = e.path) ∧
      (∀ t, isHardlinkTo (OutEntry.plain e) t → ∃ oe ∈ l, oe.epath = t))
    (hnone : st3.current = Option.none → st3.paths = [] ∧
      ∀ t, ¬ isHardlinkTo (OutEntry.plain e) t) :
    C4Inv r.1 := by
  unfold writePlain at hok
  dsimp only at hok
  simp only [Except.ok.injEq] at hok
  rw [← hok]
  set L := st3.current.getD [] with hL
  have hLfacts : hardlinkLocal L ∧ (∀ q ∈ st3.paths, (∃ oe ∈ L, oe.epath = q) ∨ q = e.path) ∧
      (∀ t, isHardlinkTo (OutEntry.plain e) t → ∃ oe ∈ L, oe.epath = t) := by
    cases hcc : st3.current with
    | none =>
      rw [hL, hcc]
      obtain ⟨hp, hnl⟩ := hnone hcc
      refine ⟨hardlinkLocal_nil, ?_, ?_⟩
      · intro q hq
        rw [hp] at hq
        simp at hq
      · intro t ht
        exact absurd ht (hnl t)
    | some l0 =>
      rw [hL, hcc]
      exact hcur l0 hcc
  refine ⟨by simpa using hfin, ?_, by simp⟩
  intro l hl
  simp only [appendOut_current] at hl
  simp only [Option.some.injEq] at hl
  constructor
  · rw [← hl]
    exact hardlinkLocal_append _ _ hLfacts.1 hLfacts.2.2
  · intro q hq
    simp only [appendOut_paths] at hq
    rcases hLfacts.2.1 q hq with ⟨oe, hoe, hp⟩ | rfl
    · refine ⟨oe, ?_, hp⟩
      rw [← hl]
      exact List.mem_append_left _ hoe
    · refine ⟨OutEntry.plain e, ?_, rfl⟩
      rw [← hl]
      exact List.mem_append_right _ (List.mem_singleton_self _)

theorem isHardlinkTo_plain_iff (e : InEntry) (t : String) :
    isHardlinkTo (OutEntry.plain e) t ↔ e.etype = EType.link ∧ e.linkName = Option.some t := by
  constructor
  · rintro ⟨e2, he2, h1, h2⟩
    injection he2 with hx
    subst hx
    exact ⟨h1, h2⟩
  · rintro ⟨h1, h2⟩
    exact ⟨e, rfl, h1, h2⟩

theorem linkCheck_ok_mem (st : WState) (e : InEntry) (u : Unit) (t : String)
    (hok : linkCheck st e = Except.ok u)
    (hty : e.etype = EType.link) (hln : e.linkName = Option.some t) :
    t ∈ st.paths := by
  unfold linkCheck at hok
  rw [if_pos hty, hln] at hok
  dsimp only at hok
  by_cases hmem : t ∈ st.paths
  · exact hmem
  · rw [if_neg hmem] at hok
    exact absurd hok (by simp)

theorem writeStep_c4 (st : WState) (e : InEntry)
    (r : WState × List (SplitMetadata × Nat) × List OutEntry)
    (hok : writeStep st e = Except.ok r) (h : C4Inv st) : C4Inv r.1 := by
  unfold writeStep at hok
  cases hs : discoverSize st.tsf e with
  | error err => rw [hs] at hok; exact absurd hok (by simp)
  | ok s =>
    rw [hs] at hok
    unfold writeSized at hok
    dsimp only at hok
    have hmain : ∀ stb : WState, C4Inv stb →
        (match linkCheck (ensureNewFile stb) e with
          | Except.error err => Except.error err
          | Except.ok _ =>
            if (ensureNewFile stb).splitSize < s then
              writeChunked e.uid e.gid e.path s e.body (pathInserted (ensureNewFile stb) e.path)
            else writePlain e s (pathInserted (ensureNewFile stb) e.path)) = Except.ok r →
        C4Inv r.1 := by
      intro stb hb hok
      have hb2 := C4Inv_ensure stb hb
      cases hchk : linkCheck (ensureNewFile stb) e with
      | error err => rw [hchk] at hok; exact absurd hok (by simp)
      | ok u =>
        rw [hchk] at hok
        obtain ⟨hfin2, hcur2, -⟩ := hb2
        have hwk : C4InvW e.path (pathInserted (ensureNewFile stb) e.path) := by
          refine ⟨by simpa using hfin2, ?_, by simp⟩
          intro l hl
          simp only [pathInserted_current] at hl
          obtain ⟨h1, h2⟩ := hcur2 l hl
          refine ⟨h1, ?_⟩
          intro q hq
          simp only [pathInserted] at hq
          unfold insertPath at hq
          by_cases hmem : e.path ∈ (ensureNewFile stb).paths
          · rw [if_pos hmem] at hq
            exact Or.inl (h2 q hq)
          · rw [if_neg hmem] at hq
            rcases List.mem_append.mp hq with hq | hq
            · exact Or.inl (h2 q hq)
            · exact Or.inr (List.mem_singleton.mp hq)
        by_cases hbig : (ensureNewFile stb).splitSize < s
        · rw [if_pos hbig] at hok
          unfold writeChunked at hok
          obtain ⟨r1, r2, r3⟩ := r
          have := chunkLoop_c4 e.uid e.gid e.path s
            ((pathInserted (ensureNewFile stb) e.path).splitSize -
              (pathInserted (ensureNewFile stb) e.path).css)
            (s / max (pathInserted (ensureNewFile stb) e.path).splitSize 1 + 3) s 0 0 e.body
            (pathInserted (ensureNewFile stb) e.path) r1 r2 r3 hok hwk
            (fun h0 => absurd h0 (by simp at hbig; omega))
          exact this
        · rw [if_neg hbig] at hok
          refine writePlain_c4 e s (pathInserted (ensureNewFile stb) e.path) r hok
            (by simpa using hfin2) ?_ ?_
          · intro l hl
            simp only [pathInserted_current] at hl
            obtain ⟨h1, h2⟩ := hcur2 l hl
            obtain ⟨-, hwcur, -⟩ := hwk
            refine ⟨h1, (hwcur l (by simpa using hl)).2, ?_⟩
            intro t ht
            obtain ⟨hty, hln⟩ := (isHardlinkTo_plain_iff e t).mp ht
            exact h2 t (linkCheck_ok_mem _ e u t hchk hty hln)
          · intro hl
            simp only [pathInserted_current, ensureNewFile_current] at hl
            cases hl
    by_cases hro : st.splitSize ≤ st.css ∧ 0 < s
    · rw [if_pos hro] at hok
      exact hmain (finishCurrentFile st) (C4Inv_finish st h) hok
    · rw [if_neg hro] at hok
      exact hmain st h hok

theorem packGo_c4 : ∀ (es : List InEntry) (st stF : WState),
    C4Inv st → packGo st es = Except.ok stF → C4Inv stF := by
  intro es
  induction es with
  | nil =>
    intro st stF h hok
    unfold packGo at hok
    simp only [Except.ok.injEq] at hok
    rw [← hok]
    exact C4Inv_finish st h
  | cons e es ih =>
    intro st stF h hok
    unfold packGo at hok
    cases hw : writeStep st e with
    | error err => rw [hw] at hok; exact absurd hok (by simp)
    | ok r =>
      rw [hw] at hok
      exact ih r.1 stF (writeStep_c4 st e r hw h) hok

/-- C4: for every archive a successful pack run produces, each hardlink
entry's target path appears as the path of a strictly earlier entry of the
same archive; and the hard-link validation fails fatally (with the
`brokenHardlink` assertion) exactly when the target is not in the current
archive's path set. -/
theorem c4_hardlink_locality (splitSize : Nat) (splitTo comp : String) (es : List InEntry)
    (archs : List Archive) (hok : packFinished splitSize splitTo comp es = Except.ok archs) :
    (∀ a ∈ archs, hardlinkLocal a.entries) ∧
    (∀ (stx : WState) (e : InEntry) (t : String), e.etype = EType.link →
      e.linkName = Option.some t → t ∉ stx.paths →
      linkCheck stx e = Except.error (PackErr.brokenHardlink e.path t)) := by
  constructor
  · unfold packFinished at hok
    cases hp : pack splitSize splitTo comp Option.none es with
    | error err => rw [hp] at hok; exact absurd hok (by simp)
    | ok stF =>
      rw [hp] at hok
      simp only [Except.ok.injEq] at hok
      rw [← hok]
      unfold pack at hp
      exact (packGo_c4 es _ stF (C4Inv_init _ _ _ _) hp).1
  · intro stx e t hty hln hmem
    unfold linkCheck
    rw [if_pos hty, hln]
    dsimp only
    rw [if_neg hmem]

def c4wf : InEntry := ⟨"f", EType.regular, 1, [], Option.none, 0, 0, 420, [7]⟩

def c4wg : InEntry := ⟨"g", EType.link, 0, [], Option.some "f", 0, 0, 420, []⟩

def c4warchs : List Archive := [⟨"p.000", [OutEntry.plain c4wf, OutEntry.plain c4wg], 1, 1⟩]

/-- Witness for `c4_hardlink_locality`: packing a one-byte file followed by
a hardlink to it produces one archive where the target precedes the link,
and the check is fatal on a missing target. -/
theorem c4_witness :
    (∀ a ∈ c4warchs, hardlinkLocal a.entries) ∧
    (∀ (stx : WState) (e : InEntry) (t : String), e.etype = EType.link →
      e.linkName = Option.some t → t ∉ stx.paths →
      linkCheck stx e = Except.error (PackErr.brokenHardlink e.path t)) :=
  c4_hardlink_locality 10 "p" "zstd" [c4wf, c4wg] c4warchs (by decide)

@[simp] theorem pathInserted_lastPos (st : WState) (p : String) :
    (pathInserted st p).lastPos = st.lastPos := rfl

@[simp] theorem appendOut_lastPos (st : WState) (oe : OutEntry) :
    (appendOut st oe).lastPos = st.lastPos := rfl

/-- The soft-size-bound invariant: archives are bounded by `split_size`
plus the size of their last positive-size entry. -/
def C5Inv (split : Nat) (st : WState) : Prop :=
  st.splitSize = split ∧
  (∀ a ∈ st.finished, a.payload < split + a.lastPos) ∧
  (st.current.isSome = true → st.css < split + st.lastPos) ∧
  (st.current = Option.none → st.css = 0 ∧ st.lastPos = 0)

theorem C5Inv_init (split : Nat) (splitTo compression : String)
    (tsf : Option (String → Option Nat)) :
    C5Inv split (initWState split splitTo compression tsf) := by
  refine ⟨rfl, ?_, ?_, fun _ => ⟨rfl, rfl⟩⟩
  · intro a ha
    simp [initWState] at ha
  · intro hs
    simp [initWState] at hs

theorem C5Inv_finish (split : Nat) (st : WState) (h : C5Inv split st) :
    C5Inv split (finishCurrentFile st) := by
  obtain ⟨hsp, hfin, hcur, -⟩ := h
  refine ⟨hsp, ?_, ?_, fun _ => ⟨rfl, rfl⟩⟩
  · intro a ha
    unfold finishCurrentFile at ha
    cases hc : st.current with
    | none =>
      rw [hc] at ha
      exact hfin a ha
    | some l =>
      rw [hc] at ha
      simp only at ha
      rcases List.mem_append.mp ha with ha | ha
      · exact hfin a ha
      · rcases List.mem_singleton.mp ha with rfl
        exact hcur (by rw [hc]; rfl)
  · intro hs
    simp at hs

theorem C5Inv_ensure (split : Nat) (st : WState) (hsp : 0 < split) (h : C5Inv split st) :
    C5Inv split (ensureNewFile st) := by
  obtain ⟨hspl, hfin, hcur, hnone⟩ := h
  refine ⟨by simpa using hspl, by simpa using hfin, ?_, by simp⟩
  intro _
  rw [ensureNewFile_css, ensureNewFile_lastPos]
  cases hc : st.current with
  | none =>
    obtain ⟨h1, h2⟩ := hnone hc
    rw [h1, h2]
    omega
  | some l =>
    exact hcur (by rw [hc]; rfl)

theorem chunkEmit_c5 (split : Nat) (uid gid : Nat) (path : String)
    (fileSize startOffset segIdx c : Nat) (body : List Nat) (st : WState)
    (h : C5Inv split st) (hsp : 0 < split) (hcs : c ≤ split) (hbig : split < fileSize) :
    C5Inv split (chunkEmit uid gid path fileSize startOffset segIdx c body st).1 := by
  obtain ⟨hspl, hfin, hcur, hnone⟩ := h
  unfold chunkEmit
  dsimp only
  have hstep : ∀ stb : WState, C5Inv split stb → stb.css < split →
      C5Inv split { appendOut (appendOut (ensureNewFile stb)
          (OutEntry.meta (path ++ ".split-metadata." ++ toString segIdx ++ ".json")
            ⟨path, startOffset, c % U32M, fileSize⟩))
          (OutEntry.chunk path c uid gid (body.take c)) with
        css := (appendOut (appendOut (ensureNewFile stb)
          (OutEntry.meta (path ++ ".split-metadata." ++ toString segIdx ++ ".json")
            ⟨path, startOffset, c % U32M, fileSize⟩))
          (OutEntry.chunk path c uid gid (body.take c))).css + c,
        paths := insertPath (appendOut (appendOut (ensureNewFile stb)
          (OutEntry.meta (path ++ ".split-metadata." ++ toString segIdx ++ ".json")
            ⟨path, startOffset, c % U32M, fileSize⟩))
          (OutEntry.chunk path c uid gid (body.take c))).paths path,
        lastPos := fileSize } := by
    intro stb hb hcss
    obtain ⟨hspl2, hfin2, -, -⟩ := hb
    refine ⟨by simpa using hspl2, by simpa using hfin2, ?_, by simp⟩
    intro _
    simp only [appendOut_css, ensureNewFile_css]
    omega
  by_cases hf : st.splitSize ≤ st.css
  · rw [if_pos hf]
    refine hstep (finishCurrentFile st) (C5Inv_finish split st ⟨hspl, hfin, hcur, hnone⟩) ?_
    rw [finishCurrentFile_css]
    exact hsp
  · rw [if_neg hf]
    exact hstep st ⟨hspl, hfin, hcur, hnone⟩ (by omega)

theorem chunkLoop_c5 (split uid gid : Nat) (path : String) (fileSize archRemaining : Nat)
    (hsp : 0 < split) (hbig : split < fileSize) :
    ∀ (fuel remaining startOffset segIdx : Nat) (body : List Nat) (st stR : WState)
      (segs : List (SplitMetadata × Nat)) (outs : List OutEntry),
      chunkLoop uid gid path fileSize archRemaining fuel remaining startOffset segIdx body st
        = Except.ok (stR, segs, outs) →
      C5Inv split st →
      C5Inv split stR := by
  intro fuel
  induction fuel with
  | zero =>
    intro remaining startOffset segIdx body st stR segs outs hok h
    by_cases hr : remaining = 0
    · subst hr
      rw [chunkLoop_rem_zero] at hok
      simp only [Except.ok.injEq, Prod.mk.injEq] at hok
      obtain ⟨hst, -, -⟩ := hok
      rw [← hst]
      exact h
    · unfold chunkLoop at hok
      rw [if_neg hr] at hok
      exact absurd hok (by simp)
  | succ fuel ih =>
    intro remaining startOffset segIdx body st stR segs outs hok h
    by_cases hr : remaining = 0
    · subst hr
      rw [chunkLoop_rem_zero] at hok
      simp only [Except.ok.injEq, Prod.mk.injEq] at hok
      obtain ⟨hst, -, -⟩ := hok
      rw [← hst]
      exact h
    · unfold chunkLoop at hok
      rw [if_neg hr] at hok
      dsimp only at hok
      set c := (if segIdx = 0 then min (min remaining st.splitSize) archRemaining
        else min remaining st.splitSize) with hc
      have hcs : c ≤ split := by
        have hs2 : st.splitSize = split := h.1
        rw [hc]
        by_cases hsg : segIdx = 0
        · rw [if_pos hsg, hs2]
          omega
        · rw [if_neg hsg, hs2]
          omega
      cases hrec : chunkLoop uid gid path fileSize archRemaining fuel (remaining - c)
          ((startOffset + c % U32M) % U32M) (segIdx + 1) (body.drop c)
          (chunkEmit uid gid path fileSize startOffset segIdx c body st).1 with
      | error err =>
        rw [hrec] at hok
        exact absurd hok (by simp)
      | ok trip =>
        obtain ⟨stN, segsN, outsN⟩ := trip
        rw [hrec] at hok
        simp only [Except.ok.injEq, Prod.mk.injEq] at hok
        obtain ⟨hst, -, -⟩ := hok
        rw [← hst]
        exact ih (remaining - c) ((startOffset + c % U32M) % U32M) (segIdx + 1) (body.drop c)
          _ stN segsN outsN hrec
          (chunkEmit_c5 split uid gid path fileSize startOffset segIdx c body st h hsp hcs hbig)

theorem writeStep_c5 (split : Nat) (st : WState) (e : InEntry)
    (r : WState × List (SplitMetadata × Nat) × List OutEntry)
    (hsp : 0 < split)
    (hok : writeStep st e = Except.ok r) (h : C5Inv split st) : C5Inv split r.1 := by
  unfold writeStep at hok
  cases hs : discoverSize st.tsf e with
  | error err => rw [hs] at hok; exact absurd hok (by simp)
  | ok s =>
    rw [hs] at hok
    unfold writeSized at hok
    dsimp only at hok
    have hmain : ∀ stb : WState, C5Inv split stb → (0 < s → stb.css < split) →
        (match linkCheck (ensureNewFile stb) e with
          | Except.error err => Except.error err
          | Except.ok _ =>
            if (ensureNewFile stb).splitSize < s then
              writeChunked e.uid e.gid e.path s e.body (pathInserted (ensureNewFile stb) e.path)
            else writePlain e s (pathInserted (ensureNewFile stb) e.path)) = Except.ok r →
        C5Inv split r.1 := by
      intro stb hb hcss hok
      have hb2 := C5Inv_ensure split stb hsp hb
      cases hchk : linkCheck (ensureNewFile stb) e with
      | error err => rw [hchk] at hok; exact absurd hok (by simp)
      | ok u =>
        rw [hchk] at hok
        have hb3 : C5Inv split (pathInserted (ensureNewFile stb) e.path) := by
          obtain ⟨h1, h2, h3, -⟩ := hb2
          exact ⟨by simpa using h1, by simpa using h2, by simpa using h3, by simp⟩
        by_cases hbig : (ensureNewFile stb).splitSize < s
        · rw [if_pos hbig] at hok
          unfold writeChunked at hok
          obtain ⟨r1, r2, r3⟩ := r
          have hbig2 : split < s := by
            rw [ensureNewFile_splitSize, hb.1] at hbig
            exact hbig
          exact chunkLoop_c5 split e.uid e.gid e.path s
            ((pathInserted (ensureNewFile stb) e.path).splitSize -
              (pathInserted (ensureNewFile stb) e.path).css) hsp hbig2
            (s / max (pathInserted (ensureNewFile stb) e.path).splitSize 1 + 3) s 0 0 e.body
            _ r1 r2 r3 hok hb3
        · rw [if_neg hbig] at hok
          unfold writePlain at hok
          dsimp only at hok
          simp only [Except.ok.injEq] at hok
          rw [← hok]
          obtain ⟨h1, h2, h3, -⟩ := hb3
          refine ⟨by simpa using h1, by simpa using h2, ?_, by simp⟩
          intro _
          simp only [appendOut_css, pathInserted_css, ensureNewFile_css]
          by_cases hpos : 0 < s
          · rw [if_pos hpos]
            have := hcss hpos
            omega
          · have hs0 : s = 0 := by omega
            rw [if_neg hpos, hs0]
            have h4 := h3 (by simp)
            simp only [pathInserted_css, ensureNewFile_css, pathInserted_lastPos,
              ensureNewFile_lastPos] at h4
            simp only [appendOut_lastPos, pathInserted_lastPos, ensureNewFile_lastPos]
            omega
    by_cases hro : st.splitSize ≤ st.css ∧ 0 < s
    · rw [if_pos hro] at hok
      exact hmain (finishCurrentFile st) (C5Inv_finish split st h)
        (fun _ => by rw [finishCurrentFile_css]; exact hsp) hok
    · rw [if_neg hro] at hok
      exact hmain st h
        (fun hpos => by
          have hs2 : st.splitSize = split := h.1
          rcases Nat.lt_or_ge st.css st.splitSize with hlt | hge
          · omega
          · exact absurd ⟨by omega, hpos⟩ hro) hok

theorem packGo_c5 (split : Nat) (hsp : 0 < split) : ∀ (es : List InEntry) (st stF : WState),
    C5Inv split st → packGo st es = Except.ok stF → C5Inv split stF := by
  intro es
  induction es with
  | nil =>
    intro st stF h hok
    unfold packGo at hok
    simp only [Except.ok.injEq] at hok
    rw [← hok]
    exact C5Inv_finish split st h
  | cons e es ih =>
    intro st stF h hok
    unfold packGo at hok
    cases hw : writeStep st e with
    | error err => rw [hw] at hok; exact absurd hok (by simp)
    | ok r =>
      rw [hw] at hok
      exact ih r.1 stF (writeStep_c5 split st e r hsp hw h) hok

instance (split : Nat) (a : Archive) : Decidable (softBoundClaim split a) := by
  unfold softBoundClaim; infer_instance

/-- C5 amended: for each completed archive of a successful pack run (with
`split_size > 0`), the accumulated uncompressed payload is below
`split_size` plus the discovered size of the last entry with positive size
written into that archive (`lastPos`, 0 if none) — the claim's clause (b)
with "size of the last entry" corrected to "size of the last entry of
positive size", since zero-size entries never trigger rollover and can
trail an already-full archive; and rollover fires only between entries
when `bytes_in_current ≥ split_size` and the incoming discovered size is
positive, so an entry of discovered size 0 never finalizes an archive. -/
theorem c5_soft_bound (split : Nat) (splitTo comp : String) (es : List InEntry)
    (archs : List Archive)
    (hsp : 0 < split)
    (hok : packFinished split splitTo comp es = Except.ok archs) :
    (∀ a ∈ archs, bigLogicalCount split a = 1 ∨ a.payload < split + a.lastPos) ∧
    (∀ (st : WState) (e : InEntry) (r : WState × List (SplitMetadata × Nat) × List OutEntry),
      discoverSize st.tsf e = Except.ok 0 → writeStep st e = Except.ok r →
      r.1.completed = st.completed ∧ r.1.finished = st.finished) := by
  constructor
  · unfold packFinished at hok
    cases hp : pack split splitTo comp Option.none es with
    | error err => rw [hp] at hok; exact absurd hok (by simp)
    | ok stF =>
      rw [hp] at hok
      simp only [Except.ok.injEq] at hok
      rw [← hok]
      unfold pack at hp
      have hinv := packGo_c5 split hsp es _ stF (C5Inv_init split splitTo comp Option.none) hp
      intro a ha
      exact Or.inr (hinv.2.1 a ha)
  · intro st e r hs hw
    unfold writeStep at hw
    rw [hs] at hw
    unfold writeSized at hw
    dsimp only at hw
    rw [if_neg (by simp)] at hw
    cases hchk : linkCheck (ensureNewFile st) e with
    | error err => rw [hchk] at hw; exact absurd hw (by simp)
    | ok u =>
      rw [hchk] at hw
      rw [if_neg (by omega)] at hw
      unfold writePlain at hw
      dsimp only at hw
      simp only [Except.ok.injEq] at hw
      rw [← hw]
      constructor <;> simp

def c5u : InEntry := ⟨"u", EType.regular, 10, [], Option.none, 0, 0, 0, [0, 0, 0, 0, 0, 0, 0, 0, 0, 0]⟩

def c5v : InEntry := ⟨"v", EType.regular, 0, [], Option.none, 0, 0, 0, []⟩

def c5w : InEntry := ⟨"w", EType.regular, 1, [], Option.none, 0, 0, 0, [9]⟩

def c5archA : Archive := ⟨"p.000", [OutEntry.plain c5u, OutEntry.plain c5v], 10, 10⟩

def c5archB : Archive := ⟨"p.001", [OutEntry.plain c5w], 1, 1⟩

/-- C5 counterexample: with `split_size = 10`, packing a 10-byte file, a
0-byte file and then a 1-byte file completes archive `p.000` containing
the first two entries with payload 10. Its last entry has declared size 0,
so clause (b) as stated (`payload < split_size + size_of_last_entry`)
fails, and no entry of the archive has declared size exceeding 10, so
clause (a) fails as well. -/
theorem c5_counterexample :
    packFinished 10 "p" "zstd" [c5u, c5v, c5w] = Except.ok [c5archA, c5archB] ∧
    ¬ softBoundClaim 10 c5archA := by
  refine ⟨by decide, by decide⟩

def c5we1 : InEntry := ⟨"m", EType.regular, 5, [], Option.none, 0, 0, 0, [1, 2, 3, 4, 5]⟩

def c5we2 : InEntry := ⟨"n", EType.regular, 0, [], Option.none, 0, 0, 0, []⟩

def c5warchs : List Archive := [⟨"q.000", [OutEntry.plain c5we1, OutEntry.plain c5we2], 5, 5⟩]

/-- Witness for `c5_soft_bound` on a concrete two-entry pack run. -/
theorem c5_witness :
    (∀ a ∈ c5warchs, bigLogicalCount 5 a = 1 ∨ a.payload < 5 + a.lastPos) ∧
    (∀ (st : WState) (e : InEntry) (r : WState × List (SplitMetadata × Nat) × List OutEntry),
      discoverSize st.tsf e = Except.ok 0 → writeStep st e = Except.ok r →
      r.1.completed = st.completed ∧ r.1.finished = st.finished) :=
  c5_soft_bound 5 "q" "zstd" [c5we1, c5we2] c5warchs (by decide) (by decide)

/-! ## Claim C1: the pack/unpack round trip -/

/-- C1 names a round trip the program does not have — a code bug. Every
archive the packer finishes holds the encoder's image of its tar stream
(`ensure_new_file` always layers the zstd encoder over the raw file), while
`unpack_one_tar` hands the raw file bytes straight to its tar parser with
no decoding layer in between. So whenever the encoder is not the identity
on the stream (zstd framing never is), the parser input is `enc(payload)`,
not the tar payload the packer serialized — for every archive of every
run; and the release drops the two hex-digest sidecar files into the same
output directory that `unpack_split_tars`' `is_file` walk feeds to that
same raw parser. -/
theorem c1_unpacker_reads_undecoded (sha enc : List Nat → List Nat)
    (name comp : String) (bufs : List (List Nat))
    (henc : enc bufs.flatten ≠ bufs.flatten) :
    ensureNewFileCodec comp = Codec.zstdLevel 3 ∧
    unpackOneTarCodec = Option.none ∧
    unpackParserInput (SinkStack.fileContent enc
        (SinkStack.writeAllBufs (newStack name).1 bufs)) =
      enc bufs.flatten ∧
    unpackParserInput (SinkStack.fileContent enc
        (SinkStack.writeAllBufs (newStack name).1 bufs)) ≠
      bufs.flatten ∧
    SinkStack.release sha enc (SinkStack.writeAllBufs (newStack name).1 bufs) =
      [FileEffect.writeAll (name ++ ".uncompressed.sha256") (hexLower (sha bufs.flatten)),
       FileEffect.writeAll (name ++ ".compressed.sha256")
         (hexLower (sha (enc bufs.flatten)))] := by
  have hctx : SinkStack.writeAllBufs (newStack name).1 bufs =
      ⟨⟨bufs.flatten, name ++ ".uncompressed.sha256"⟩,
        PTHW.new (name ++ ".compressed.sha256")⟩ := by
    rw [sinkStack_writeAllBufs_spec]
    rfl
  refine ⟨rfl, rfl, ?_, ?_, ?_⟩
  · rw [hctx]
    rfl
  · rw [hctx]
    exact henc
  · rw [hctx]
    simp [SinkStack.release, PTHW.new, PTHW.writeBuf]

/-- A framing encoder standing in for the zstd stream writer: it prepends
the four zstd magic bytes, so its output never equals its input. -/
def c1bugEnc : List Nat → List Nat := fun bs => 40 :: 181 :: 47 :: 253 :: bs

def c1bugSha : List Nat → List Nat := fun _ => [171]

/-- Witness for `c1_unpacker_reads_undecoded` at one archive with a
three-byte tar stream: the parser input is the framed stream, not the
payload, and the two sidecars are written beside the archive. -/
theorem c1_unpacker_witness :
    ensureNewFileCodec "zstd" = Codec.zstdLevel 3 ∧
    unpackOneTarCodec = Option.none ∧
    unpackParserInput (SinkStack.fileContent c1bugEnc
        (SinkStack.writeAllBufs (newStack "p.000").1 [[1, 2, 3]])) =
      c1bugEnc [[1, 2, 3]].flatten ∧
    unpackParserInput (SinkStack.fileContent c1bugEnc
        (SinkStack.writeAllBufs (newStack "p.000").1 [[1, 2, 3]])) ≠
      [[1, 2, 3]].flatten ∧
    SinkStack.release c1bugSha c1bugEnc (SinkStack.writeAllBufs (newStack "p.000").1 [[1, 2, 3]]) =
      [FileEffect.writeAll ("p.000" ++ ".uncompressed.sha256")
         (hexLower (c1bugSha [[1, 2, 3]].flatten)),
       FileEffect.writeAll ("p.000" ++ ".compressed.sha256")
         (hexLower (c1bugSha (c1bugEnc [[1, 2, 3]].flatten)))] :=
  c1_unpacker_reads_undecoded c1bugSha c1bugEnc "p.000" "zstd" [[1, 2, 3]] (by decide)
